import Mathlib

/-!
Verification of the automata_rust regular-language engine.

The definitions below are a shallow embedding of the Rust sources:

* `Lit`, `Token`           — src/parse/lit.rs, src/parse/token.rs
* `lexAll`                 — src/parse/mod.rs (`Lexer::peek`/`next`)
* `parseExpr`, `parsePF`   — src/parse/postfix.rs (`Postfix::parse_expr`, `FromStr`)
* `Transition`, `NFA`, `compileF` — src/nfa/nfa.rs (`NFA::compile` and helpers)
* `addState`, `stepFn`, `isMatchFuel` — src/nfa/nfa.rs (`NFA::add_state`, `NFA::step`,
  `Language::is_match` for `NFA`)
* `NFASet.build`           — src/nfa/nfa_set.rs
* `lexNext`                — src/lexer/mod.rs (`Lexer::next`)

Rust panics (`panic!`, `unwrap`, `unreachable!`, out-of-bounds indexing) and
non-termination are both modelled by `Option.none`; `Result` values are modelled
by `Except`.  Machine `usize` values are modelled by `Nat` (the quantities involved
are list lengths and byte counts, which cannot overflow in any execution the
claims quantify over).  The Rust `&'static str` capture labels are modelled by
`String`.
-/

set_option maxHeartbeats 1000000

namespace AutomataRust

/-- Character literal, src/parse/lit.rs.  `range lo hi` models `Range(lo..=hi)`. -/
inductive Lit where
  | char (c : Char)
  | any
  | range (lo hi : Char)
  deriving DecidableEq, Repr

/-- `Lit::accepts`: `RangeInclusive::contains` is `lo ≤ c && c ≤ hi`. -/
def Lit.accepts : Lit → Char → Bool
  | .char l, c => l = c
  | .any, _ => true
  | .range lo hi, c => lo ≤ c ∧ c ≤ hi

/-- Grammar tokens, src/parse/token.rs. -/
inductive Token where
  | eof
  | oparen
  | cparen
  | kleeneS
  | kleeneP
  | concat
  | union
  | optional
  | range
  | lit (l : Lit)
  deriving DecidableEq, Repr

/-- `Token::infix_precedence`. -/
def Token.infPrec : Token → Option (Nat × Nat)
  | .range => some (12, 11)
  | .concat => some (4, 3)
  | .union => some (2, 1)
  | _ => none

/-- `Token::postfix_precedence`. -/
def Token.postPrec : Token → Option Nat
  | .kleeneP | .kleeneS => some 10
  | .optional => some 9
  | _ => none

/-- NFA transitions, src/nfa/nfa.rs.  States are dense indices (`State(usize)`). -/
inductive Transition where
  | label (l : Lit) (next : Nat)
  | split (e1 e2 : Option Nat)
  | group (g : String) (next : Nat)
  | eof
  | accept
  deriving DecidableEq, Repr

/-- The NFA arena, src/nfa/nfa.rs. -/
structure NFA where
  transitions : List Transition
  start : Nat
  accept : Nat
  eof : Nat
  deriving DecidableEq, Repr

/-- Builder fragment (`struct Frag`). -/
structure Frag where
  start : Nat
  out : List Nat
  deriving DecidableEq, Repr

/-- Surface parse errors, src/parse/mod.rs.  `invalidRange` carries the two
offending tokens; the source renders them into the `found` string. -/
inductive ParseError where
  | unmatched (s : String)
  | parsingStopped (t : Token)
  | invalidPrefixErr (t : Token)
  | invalidRange (left right : Token)
  | unexpectedEof
  deriving DecidableEq, Repr

/-- Compile errors, src/language.rs. -/
inductive CompileError where
  | emptyStack (t : Token)
  | nonUnaryStack (size : Nat)
  | unexpectedOpenParen
  | unexpectedCloseParen
  | unexpectedRange
  | parseErr (s : String)
  deriving DecidableEq, Repr

/-- Match results, src/language.rs. -/
inductive Match where
  | group (l : String) (size : Nat)
  | noGroup (size : Nat)
  deriving DecidableEq, Repr

/-- `Match::match_size`. -/
def Match.matchSize : Match → Nat
  | .group _ s | .noGroup s => s

/-! ## The surface lexer (src/parse/mod.rs, `Lexer::peek`) -/

/-- One non-escape, non-whitespace source character mapped to its token together
with the `needs_concat` flag computed in `Lexer::peek`. -/
def charToken (c : Char) : Token × Bool :=
  match c with
  | '(' => (.oparen, false)
  | '|' => (.union, false)
  | '-' => (.range, false)
  | ')' => (.cparen, true)
  | '*' => (.kleeneS, true)
  | '+' => (.kleeneP, true)
  | '?' => (.optional, true)
  | '$' => (.eof, false)
  | c => (.lit (.char c), true)

/-- The literal produced by an escape `\c`. -/
def escapeLit (c : Char) : Lit :=
  match c with
  | 'n' => .char '\n'
  | 't' => .char '\t'
  | 'r' => .char '\r'
  | c => .char c

/-- First scalar not skipped as whitespace, used for the one-token lookahead of
the implicit-concatenation rule. -/
def nextNonWs : List Char → Option Char
  | [] => none
  | c :: r => if c.isWhitespace then nextNonWs r else some c

/-- The characters that suppress an implicit `Concat` before them. -/
def noConcatBefore (c : Char) : Bool :=
  c = ')' ∨ c = '*' ∨ c = '+' ∨ c = '|' ∨ c = '?' ∨ c = '-'

/-- Whole-input token stream of the surface lexer.  `none` models the
`panic!("Unexpected Eof")` on a trailing backslash.  The queue-based lookahead
of the source is flattened: whitespace consumed during lookahead would be
skipped at the next call anyway, so the emitted token sequence is identical. -/
def lexAll : List Char → Option (List Token)
  | [] => some []
  | c :: rest =>
    if c.isWhitespace then lexAll rest
    else if c = '\\' then
      match rest with
      | [] => none
      | e :: rest2 =>
        let needsConcat :=
          match nextNonWs rest2 with
          | some c2 => !noConcatBefore c2
          | none => false
        (lexAll rest2).map fun ts =>
          .lit (escapeLit e) :: (if needsConcat then Token.concat :: ts else ts)
    else
      let tk := charToken c
      let needsConcat :=
        tk.2 &&
          match nextNonWs rest with
          | some c2 => !noConcatBefore c2
          | none => false
      (lexAll rest).map fun ts =>
        tk.1 :: (if needsConcat then Token.concat :: ts else ts)

/-! ## The Pratt parser (src/parse/postfix.rs) -/

mutual

/-- `Postfix::parse_expr`, fuelled.  Returns the RPN built so far together with
the unconsumed tokens.  The source pulls tokens lazily from the lexer; since the
lexer is a pure iterator this is equivalent to parsing the pre-lexed stream. -/
def parseExpr : Nat → List Token → Nat → Option (Except ParseError (List Token × List Token))
  | 0, _, _ => none
  | fuel + 1, toks, prec =>
    match toks with
    | [] => some (.error .unexpectedEof)
    | t :: rest =>
      match t with
      | .lit l => parseLoop fuel [Token.lit l] rest prec
      | .eof => parseLoop fuel [Token.eof] rest prec
      | .oparen =>
        match parseExpr fuel rest 0 with
        | none => none
        | some (.error e) => some (.error e)
        | some (.ok (lhs, rest2)) =>
          match rest2 with
          | .cparen :: rest3 => parseLoop fuel lhs rest3 prec
          | _ => some (.error (.unmatched "("))
      | t => some (.error (.invalidPrefixErr t))

/-- The operator loop inside `parse_expr`.  `none` models the
`pop().unwrap()` panics of the `Range` merge. -/
def parseLoop : Nat → List Token → List Token → Nat → Option (Except ParseError (List Token × List Token))
  | 0, _, _, _ => none
  | fuel + 1, lhs, toks, prec =>
    match toks with
    | [] => some (.ok (lhs, []))
    | t :: rest =>
      match t.postPrec with
      | some p =>
        if p < prec then some (.ok (lhs, t :: rest))
        else parseLoop fuel (lhs ++ [t]) rest prec
      | none =>
        match t.infPrec with
        | none => some (.ok (lhs, t :: rest))
        | some (leftPrec, rightPrec) =>
          if leftPrec < prec then some (.ok (lhs, t :: rest))
          else
            match parseExpr fuel rest rightPrec with
            | none => none
            | some (.error e) => some (.error e)
            | some (.ok (rhs, rest2)) =>
              if t = Token.range then
                match lhs.getLast?, rhs.getLast? with
                | some left, some right =>
                  match left, right with
                  | .lit (.char lower), .lit (.char upper) =>
                    parseLoop fuel (lhs.dropLast ++ [Token.lit (.range lower upper)]) rest2 prec
                  | _, _ => some (.error (.invalidRange left right))
                | _, _ => none
              else parseLoop fuel (lhs ++ rhs ++ [t]) rest2 prec

end

/-- `impl FromStr for Postfix`: lex, parse with `prec = 0`, and require the
token stream to be exhausted.  The fuel is ample for any input of this size. -/
def parsePF (source : List Char) : Option (Except ParseError (List Token)) :=
  match lexAll source with
  | none => none
  | some toks =>
    match parseExpr (2 * toks.length + 2) toks 0 with
    | none => none
    | some (.error e) => some (.error e)
    | some (.ok (rpn, rest)) =>
      match rest with
      | t :: _ => some (.error (.parsingStopped t))
      | [] => some (.ok rpn)

/-! ## Thompson compilation (src/nfa/nfa.rs, `NFA::compile`) -/

/-- `NFA::new_label_state`: appends `Label(lit, self)` (a self-loop). -/
def NFA.newLabelState (nfa : NFA) (l : Lit) : NFA × Nat :=
  ({ nfa with transitions := nfa.transitions ++ [.label l nfa.transitions.length] },
   nfa.transitions.length)

/-- `NFA::new_split_state`. -/
def NFA.newSplitState (nfa : NFA) (e1 e2 : Option Nat) : NFA × Nat :=
  ({ nfa with transitions := nfa.transitions ++ [.split e1 e2] },
   nfa.transitions.length)

/-- `NFA::new_group_state`: push `Group(label, start)` and make it the start. -/
def NFA.newGroupState (nfa : NFA) (marker : String) : NFA :=
  { nfa with
    transitions := nfa.transitions ++ [.group marker nfa.start],
    start := nfa.transitions.length }

/-- One dangling out-edge patched to `tgt`; `none` models the `panic!()` arms of
`NFA::patch` (and the index panic).  Note the source overwrites `e2`
unconditionally in the `Split` arm. -/
def patchOne (ts : List Transition) (outp tgt : Nat) : Option (List Transition) :=
  match ts[outp]? with
  | some (.label l _) => some (ts.set outp (.label l tgt))
  | some (.split e1 _) => some (ts.set outp (.split e1 (some tgt)))
  | _ => none

/-- `NFA::patch`: patch every out-state of the fragment to `tgt`. -/
def patchOut (ts : List Transition) (out : List Nat) (tgt : Nat) : Option (List Transition) :=
  match out with
  | [] => some ts
  | o :: rest =>
    match patchOne ts o tgt with
    | none => none
    | some ts2 => patchOut ts2 rest tgt

/-- `NFA::patch` on a whole fragment. -/
def NFA.patch (nfa : NFA) (f : Frag) (tgt : Nat) : Option NFA :=
  (patchOut nfa.transitions f.out tgt).map fun ts => { nfa with transitions := ts }

/-- One token of the compile loop.  The fragment stack grows at the head (the
Rust `Vec` grows at the tail; `pop` is head here).  `none` models the
`pop().unwrap()` panics. -/
def compileStep (nfa : NFA) (stack : List Frag) (tok : Token) :
    Option (Except CompileError (NFA × List Frag)) :=
  match tok with
  | .kleeneS =>
    match stack with
    | [] => some (.error (.emptyStack .kleeneS))
    | e :: stack =>
      let (nfa, s) := nfa.newSplitState (some e.start) none
      match nfa.patch e s with
      | none => none
      | some nfa => some (.ok (nfa, ⟨s, [s]⟩ :: stack))
  | .union =>
    match stack with
    | e2 :: e1 :: stack =>
      let (nfa, s) := nfa.newSplitState (some e1.start) (some e2.start)
      some (.ok (nfa, ⟨s, e1.out ++ e2.out⟩ :: stack))
    | _ => none
  | .concat =>
    match stack with
    | e2 :: e1 :: stack =>
      match nfa.patch e1 e2.start with
      | none => none
      | some nfa => some (.ok (nfa, ⟨e1.start, e2.out⟩ :: stack))
    | _ => none
  | .kleeneP =>
    match stack with
    | e :: stack =>
      let (nfa, s) := nfa.newSplitState (some e.start) none
      match nfa.patch e s with
      | none => none
      | some nfa => some (.ok (nfa, ⟨e.start, [s]⟩ :: stack))
    | [] => none
  | .optional =>
    match stack with
    | e :: stack =>
      let (nfa, s) := nfa.newSplitState (some e.start) none
      some (.ok (nfa, ⟨s, e.out ++ [s]⟩ :: stack))
    | [] => none
  | .range => some (.error .unexpectedRange)
  | .oparen => some (.error .unexpectedOpenParen)
  | .cparen => some (.error .unexpectedCloseParen)
  | .eof =>
    let (nfa, s) := nfa.newSplitState (some nfa.eof) none
    some (.ok (nfa, ⟨s, []⟩ :: stack))
  | .lit c =>
    let (nfa, s) := nfa.newLabelState c
    some (.ok (nfa, ⟨s, [s]⟩ :: stack))

/-- The compile loop over all tokens. -/
def compileSteps : List Token → NFA → List Frag → Option (Except CompileError (NFA × List Frag))
  | [], nfa, stack => some (.ok (nfa, stack))
  | t :: rest, nfa, stack =>
    match compileStep nfa stack t with
    | none => none
    | some (.error e) => some (.error e)
    | some (.ok (nfa, stack)) => compileSteps rest nfa stack

/-- The final `if let (1, Some(e)) = (stack.len(), stack.pop())`.  The `size`
in `NonUnaryStack` is the stack length after the pop attempt, exactly as the
source computes it. -/
def finalize (nfa : NFA) (stack : List Frag) : Option (Except CompileError NFA) :=
  match stack with
  | [e] =>
    match NFA.patch { nfa with start := e.start } e nfa.accept with
    | none => none
    | some nfa => some (.ok nfa)
  | [] => some (.error (.nonUnaryStack 0))
  | _ :: rest => some (.error (.nonUnaryStack rest.length))

/-- The fresh arena of `NFA::new` after `new_accept_state`: state 0 is `Eof`,
state 1 is `Accept`; `accept = 1`, `eof = 0`, `start = 0`. -/
def initNFA : NFA := ⟨[.eof, .accept], 0, 1, 0⟩

/-- `NFA::compile` on a postfix token sequence. -/
def compileF (tokens : List Token) : Option (Except CompileError NFA) :=
  match compileSteps tokens initNFA [] with
  | none => none
  | some (.error e) => some (.error e)
  | some (.ok (nfa, stack)) => finalize nfa stack

/-! ## NFA simulation (src/nfa/nfa.rs, `add_state`, `step`, `is_match`) -/

/-- The scratch state of one `is_match` call (`struct Step`). -/
structure Step where
  currentChar : Char
  consumed : Nat
  stepList : List Nat
  step : Nat
  deriving DecidableEq, Repr

/-- `Step::new`: generation counters all 0, generation 1. -/
def Step.new (numStates : Nat) : Step :=
  ⟨Char.ofNat 0, 0, List.replicate numStates 0, 1⟩

/-- `Step::set_visited`. -/
def Step.setVisited (s : Step) (state : Nat) : Step :=
  { s with stepList := s.stepList.set state s.step }

/-- `Step::next_step`: bump the generation and account the consumed bytes. -/
def Step.nextStep (s : Step) (c : Char) : Step :=
  { s with step := s.step + 1, currentChar := c, consumed := s.consumed + c.utf8Size }

/-- A frontier entry: active capture label and state (`(Option<Label>, State)`). -/
abbrev Entry := Option String × Nat

/-- The `matches` map.  The Rust `HashMap<Option<Label>, usize>` is modelled by
an association list with insert-or-replace; the claims only concern the set of
entries, which agrees with the hash map. -/
abbrev Matches := List (Option String × Nat)

/-- `HashMap::insert`: replace the value at an existing key, else add. -/
def insertMatch : Matches → Option String → Nat → Matches
  | [], k, v => [(k, v)]
  | (k2, v2) :: rest, k, v =>
    if k2 = k then (k, v) :: rest else (k2, v2) :: insertMatch rest k v

/-- `NFA::add_state`, fuelled (the source recursion has no structural bound;
a `Split`/`Group` cycle makes it diverge, which surfaces here as `none` for
every fuel).  `Split` and `Group` states are not marked visited, exactly as in
the source. -/
def addState (nfa : NFA) :
    Nat → Step → List Entry → Matches → Option String → Nat →
    Option (Step × List Entry × Matches)
  | 0, _, _, _, _, _ => none
  | fuel + 1, st, list, ms, group, state =>
    match st.stepList[state]? with
    | none => none
    | some gen =>
      if gen = st.step then some (st, list, ms)
      else
        match nfa.transitions[state]? with
        | none => none
        | some (.split e1 e2) =>
          match (match e1 with
                 | some s1 => addState nfa fuel st list ms group s1
                 | none => some (st, list, ms)) with
          | none => none
          | some (st, list, ms) =>
            match e2 with
            | some s2 => addState nfa fuel st list ms group s2
            | none => some (st, list, ms)
        | some (.group l e) => addState nfa fuel st list ms (some l) e
        | some (.label _ _) =>
          let st := st.setVisited state
          some (st, list ++ [(group, state)],
            if state = nfa.accept then insertMatch ms group st.consumed else ms)
        | some .accept =>
          let st := st.setVisited state
          some (st, list ++ [(group, state)],
            if state = nfa.accept then insertMatch ms group st.consumed else ms)
        | some .eof =>
          let st := st.setVisited state
          some (st, list ++ [(group, state)], ms)

/-- `NFA::step`: feed the current character to every frontier entry.  `none` in
the `Split`/`Group` arm models the `unreachable!()` panic. -/
def stepFn (nfa : NFA) (fuel : Nat) :
    Step → List Entry → List Entry → Matches → Option (Step × List Entry × Matches)
  | st, [], next, ms => some (st, next, ms)
  | st, (g, s) :: cur, next, ms =>
    match nfa.transitions[s]? with
    | none => none
    | some (.label cond e) =>
      if cond.accepts st.currentChar then
        match addState nfa fuel st next ms g e with
        | none => none
        | some (st, next, ms) => stepFn nfa fuel st cur next ms
      else stepFn nfa fuel st cur next ms
    | some (.split _ _) => none
    | some (.group _ _) => none
    | some .accept => stepFn nfa fuel st cur next ms
    | some .eof => stepFn nfa fuel st cur next ms

/-- The character loop of `is_match`.  The source swaps `current`/`next` and
truncates; here the fresh `next` list is passed empty to each `stepFn`. -/
def mainLoop (nfa : NFA) (fuel : Nat) :
    Step → List Entry → Matches → List Char → Option (Step × List Entry × Matches)
  | st, current, ms, [] => some (st, current, ms)
  | st, current, ms, c :: rest =>
    match stepFn nfa fuel (st.nextStep c) current [] ms with
    | none => none
    | some (st, next, ms) => mainLoop nfa fuel st next ms rest

/-- `str::len` of the input: total UTF-8 byte length. -/
def byteLen (input : List Char) : Nat := (input.map Char.utf8Size).sum

/-- Pair-to-`Match` conversion (`impl From<(Option<Label>, usize)> for Match`). -/
def toMatch : Option String × Nat → Match
  | (some l, n) => .group l n
  | (none, n) => .noGroup n

/-- `Language::is_match` for `NFA`, fuelled.  After the loop, entries still in
the frontier at the `eof` state are emitted with the input's byte length, and
chained after the recorded matches. -/
def isMatchFuel (fuel : Nat) (nfa : NFA) (input : List Char) : Option (List Match) :=
  match addState nfa fuel (Step.new nfa.transitions.length) [] [] none nfa.start with
  | none => none
  | some (st, current, ms) =>
    match mainLoop nfa fuel st current ms input with
    | none => none
    | some (_, current, ms) =>
      some ((ms ++ current.filterMap fun e =>
        if e.2 = nfa.eof then some (e.1, byteLen input) else none).map toMatch)

/-! ## Multi-pattern union (src/nfa/nfa_set.rs, `NFASet::build`) -/

/-- Renumbering applied to each transition of an appended NFA: edges into the
appended NFA's accept are redirected to the base accept, all other edges are
offset; `Group` edges are offset unconditionally, `Accept`/`Eof` entries are
kept as they are. -/
def fuseEdge (nextAccept baseAccept offset : Nat) (e : Nat) : Nat :=
  if e = nextAccept then baseAccept else e + offset

/-- The per-transition renumbering of the fusion loop. -/
def fuseTransition (nextAccept baseAccept offset : Nat) : Transition → Transition
  | .label l e => .label l (fuseEdge nextAccept baseAccept offset e)
  | .split e1 e2 =>
    .split (e1.map (fuseEdge nextAccept baseAccept offset))
      (e2.map (fuseEdge nextAccept baseAccept offset))
  | .group g e => .group g (e + offset)
  | .accept => .accept
  | .eof => .eof

/-- One iteration of the fusion loop of `NFASet::build`: wrap the next NFA in a
`Group`, renumber it, append it, and add a fresh `Split` joining the starts. -/
def fuseStep (base : NFA) (next : String × NFA) : NFA :=
  let offset := base.transitions.length
  let wrapped := next.2.newGroupState next.1
  let ts := wrapped.transitions.map (fuseTransition wrapped.accept base.accept offset)
  let base := { base with transitions := base.transitions ++ ts }
  { base with
    transitions := base.transitions ++ [.split (some base.start) (some (wrapped.start + offset))],
    start := base.transitions.length }

/-- `NFASet::build`.  `Vec::pop` takes the last pair as the base; the loop then
runs over the remaining pairs in order. -/
def NFASet.build (pairs : List (String × NFA)) : Except String NFA :=
  match pairs.getLast? with
  | none => .error "At least one nfa must be provided"
  | some (marker, nfa) =>
    .ok (pairs.dropLast.foldl fuseStep (nfa.newGroupState marker))

/-! ## The lexer driver (src/lexer/mod.rs) -/

/-- `Spanned<T>`; the source field `end` is `stop` here (`end` is reserved). -/
structure Spanned (T : Type) where
  start : Nat
  token : T
  stop : Nat
  deriving DecidableEq, Repr

/-- `LexError`. -/
inductive LexError where
  | unrecognizedToken (loc : Nat)
  deriving DecidableEq, Repr

/-- The `Token` trait of src/lexer/token.rs, as the record of functions the
driver consumes: longest skip length, longest labelled match, optional eof
token. -/
structure TokenImpl (T : Type) where
  skipChars : List Char → Nat
  nextMatch : List Char → Option (Nat × T)
  eofTok : Option T

/-- Drop `n` bytes from the front of a character list, `&s[n..]`.  `none`
models the slicing panic on a non-boundary or out-of-range index. -/
def dropBytes : Nat → List Char → Option (List Char)
  | 0, l => some l
  | _ + 1, [] => none
  | n + 1, c :: l =>
    if c.utf8Size ≤ n + 1 then dropBytes (n + 1 - c.utf8Size) l else none

/-- The driver state of `Lexer<'input, T>`. -/
structure LexDriver where
  input : List Char
  consumed : Nat
  sentEof : Bool
  sentError : Bool
  deriving DecidableEq, Repr

/-- `Lexer::next`: skip, check the terminal flags, emit the eof token once, or
produce the longest match / an `UnrecognizedToken` error with one-scalar
recovery.  The outer `none` models panics; the inner `none` is the iterator's
`None`. -/
def lexNext {T : Type} (impl : TokenImpl T) (st : LexDriver) :
    Option (Option (Except LexError (Spanned T)) × LexDriver) :=
  let skipped := impl.skipChars st.input
  match dropBytes skipped st.input with
  | none => none
  | some input1 =>
    let st := { st with input := input1, consumed := st.consumed + skipped }
    if st.sentError || st.sentEof then some (none, st)
    else if st.input.isEmpty then
      let st := { st with sentEof := true }
      some (st.consumed |> fun n => (impl.eofTok.map fun t => .ok ⟨n, t, n⟩), st)
    else
      match impl.nextMatch st.input with
      | some (n, tok) =>
        match dropBytes n st.input with
        | none => none
        | some rest =>
          some (some (.ok ⟨st.consumed, tok, st.consumed + n⟩),
            { st with consumed := st.consumed + n, input := rest })
      | none =>
        match st.input with
        | [] => some (some (.error (.unrecognizedToken st.consumed)), { st with sentError := true })
        | c :: rest =>
          some (some (.error (.unrecognizedToken st.consumed)),
            { st with input := rest, consumed := st.consumed + c.utf8Size })

/-! ## Invariant predicates and concrete instances used by the claims -/

/-- Whether an `Except` is `ok`. -/
def isOkB {ε α : Type} : Except ε α → Bool
  | .ok _ => true
  | .error _ => false

/-- Decidable equality of `Except` values, for evaluating results. -/
instance instDecidableEqExcept {ε α : Type} [DecidableEq ε] [DecidableEq α] :
    DecidableEq (Except ε α) := fun a b =>
  match a, b with
  | .ok x, .ok y =>
    if h : x = y then isTrue (by rw [h]) else isFalse (by intro hh; cases hh; exact h rfl)
  | .error x, .error y =>
    if h : x = y then isTrue (by rw [h]) else isFalse (by intro hh; cases hh; exact h rfl)
  | .ok _, .error _ => isFalse (by intro h; cases h)
  | .error _, .ok _ => isFalse (by intro h; cases h)

/-- No transition of the arena has an edge into `acc`. -/
def NoEdgeInto (ts : List Transition) (acc : Nat) : Prop :=
  ∀ t ∈ ts,
    (∀ l e, t = Transition.label l e → e ≠ acc) ∧
    (∀ e1 e2, t = Transition.split e1 e2 → e1 ≠ some acc ∧ e2 ≠ some acc) ∧
    (∀ g e, t = Transition.group g e → e ≠ acc)

/-- Invariant of the compile loop: the accept state is state 1, the eof state
is state 0, no transition has an edge into the accept state (the only edge into
it is made by the final patch), and no fragment on the stack starts at the
accept state. -/
def CompInv (nfa : NFA) (stack : List Frag) : Prop :=
  nfa.accept = 1 ∧ nfa.eof = 0 ∧ 2 ≤ nfa.transitions.length ∧
    NoEdgeInto nfa.transitions 1 ∧ ∀ f ∈ stack, f.start ≠ 1

/-- Every ε-path out of `s` reaches a `Group` transition before any consuming,
accepting or eof state.  Derivations exist only when the split structure below
`s` is well-founded, which the fused start chain of `NFASet::build` is. -/
inductive Guarded (nfa : NFA) : Nat → Prop where
  | group (s : Nat) (l : String) (e : Nat)
      (h : nfa.transitions[s]? = some (.group l e)) : Guarded nfa s
  | split (s : Nat) (e1 e2 : Option Nat)
      (h : nfa.transitions[s]? = some (.split e1 e2))
      (h1 : ∀ x, e1 = some x → Guarded nfa x)
      (h2 : ∀ x, e2 = some x → Guarded nfa x) : Guarded nfa s

/-- The keys of a matches list are pairwise distinct. -/
def KeysDistinct (ms : Matches) : Prop :=
  List.Pairwise (fun a b => a.1 ≠ b.1) ms

/-- Every state in the frontier list is marked visited in the current
generation. -/
def AllVisited (st : Step) (list : List Entry) : Prop :=
  ∀ e ∈ list, st.stepList[e.2]? = some st.step

/-- The states of the frontier list are pairwise distinct. -/
def DistinctStates (list : List Entry) : Prop :=
  List.Pairwise (fun a b => a.2 ≠ b.2) list

/-- Every frontier entry carries a capture label. -/
def AllLabeled (list : List Entry) : Prop :=
  ∀ e ∈ list, e.1.isSome = true

/-- Every recorded match carries a capture label. -/
def KeysLabeled (ms : Matches) : Prop :=
  ∀ e ∈ ms, e.1.isSome = true

/-- Number of `Eof` entries in a transition table. -/
def countEof (ts : List Transition) : Nat :=
  (ts.filter fun t => t = Transition.eof).length

/-- Number of `Group` entries in a transition table. -/
def countGroup (ts : List Transition) : Nat :=
  (ts.filter fun t => match t with | .group _ _ => true | _ => false).length

/-- `NFA::compile` of the postfix of `a**` (equally of `(a*)*`): states 3 and 4
form a cycle of `Split` transitions. -/
def nfaNestedStar : NFA :=
  ⟨[.eof, .accept, .label (.char 'a') 3, .split (some 2) (some 4),
    .split (some 3) (some 1)], 4, 1, 0⟩

/-- `NFA::compile` of the postfix of `a|b$`. -/
def nfaAltEof : NFA :=
  ⟨[.eof, .accept, .label (.char 'a') 1, .label (.char 'b') 4,
    .split (some 0) none, .split (some 2) (some 3)], 5, 1, 0⟩

/-- `NFA::compile` of the postfix of `a|aa$`. -/
def nfaTriplet : NFA :=
  ⟨[.eof, .accept, .label (.char 'a') 1, .label (.char 'a') 4,
    .label (.char 'a') 5, .split (some 0) none, .split (some 2) (some 3)], 6, 1, 0⟩

/-- `NFASet::build` of the single pair `("l", nfaTriplet)`. -/
def fusedTriplet : NFA :=
  ⟨[.eof, .accept, .label (.char 'a') 1, .label (.char 'a') 4,
    .label (.char 'a') 5, .split (some 0) none, .split (some 2) (some 3),
    .group "l" 6], 7, 1, 0⟩

/-- `NFA::compile` of the postfix of `a`. -/
def nfaCharA : NFA := ⟨[.eof, .accept, .label (.char 'a') 1], 2, 1, 0⟩

/-- `NFA::compile` of the postfix of `b`. -/
def nfaCharB : NFA := ⟨[.eof, .accept, .label (.char 'b') 1], 2, 1, 0⟩

/-- `NFASet::build` of `[("l1", nfaCharA), ("l2", nfaCharB)]`: the appended
component keeps its own `Eof` (index 4) and `Accept` (index 5) entries. -/
def fusedPair : NFA :=
  ⟨[.eof, .accept, .label (.char 'b') 1, .group "l2" 2, .eof, .accept,
    .label (.char 'a') 1, .group "l1" 6, .split (some 3) (some 7)], 8, 1, 0⟩

/-- `NFASet::build` of the single pair `("w", nfaCharA)`. -/
def fusedSingleA : NFA :=
  ⟨[.eof, .accept, .label (.char 'a') 1, .group "w" 2], 3, 1, 0⟩

/-- `NFA::compile` of the postfix of `z-a` (a reversed range). -/
def nfaRevRange : NFA := ⟨[.eof, .accept, .label (.range 'z' 'a') 1], 2, 1, 0⟩

/-- `NFA::compile` of the postfix of `a$` (`[Lit('a'), Eof, Concat]`). -/
def nfaLitEof : NFA :=
  ⟨[.eof, .accept, .label (.char 'a') 3, .split (some 0) none], 2, 1, 0⟩

/-- A trivial token implementation for exercising the driver: skip nothing,
match nothing, no eof token. -/
def implUnit : TokenImpl Unit :=
  ⟨fun _ => 0, fun _ => none, none⟩

/-- A driver state whose error-terminal flag is set. -/
def stErrSet : LexDriver := ⟨['a'], 3, false, true⟩

/-! ## Theorems -/

/-- C2 counterexample: compiling the empty postfix program does not succeed. -/
theorem c2_empty_postfix_not_ok : (compileF []).map isOkB = some false := by decide

/-- C2 (amended): compiling the empty postfix program fails with
`NonUnaryStack { size: 0 }` — the final pattern `(1, Some(e))` cannot match an
empty stack, and the reported size is the length after the pop attempt. -/
theorem c2_empty_postfix_error :
    compileF [] = some (Except.error (CompileError.nonUnaryStack 0)) := by decide

/-- C7 counterexample: on a lone trailing backslash the lexer panics
(modelled by `none`) instead of producing any token stream or error value. -/
theorem c7_trailing_backslash_lexer_panics : lexAll ['\\'] = none := by decide

/-- C7 (amended): a pattern consisting of a trailing backslash makes the whole
parse panic (`panic!("Unexpected Eof")` in `Lexer::peek`), it is not reported
as an error value. -/
theorem c7_trailing_backslash_parse_panics : parsePF ['\\'] = none := by decide

/-- C6 counterexample: after the `$` token the lexer emits no `Concat`, even
though the next non-whitespace scalar `a` is not one of `) * + | ? -`. -/
theorem c6_no_concat_after_eof_token :
    lexAll ['$', 'a'] = some [Token.eof, Token.lit (Lit.char 'a')] ∧
      Token.concat ∉ [Token.eof, Token.lit (Lit.char 'a')] := by decide

/-- C3 counterexample: `a|b$` ends in `$`, yet on input `ab` (which the
pattern does not fully consume) `is_match` returns the non-empty collection
`[NoGroup 1]` — the `a` branch records a proper-prefix match. -/
theorem c3_alt_eof_prefix_match :
    parsePF ['a', '|', 'b', '$'] =
        some (Except.ok [Token.lit (Lit.char 'a'), Token.lit (Lit.char 'b'),
          Token.eof, Token.concat, Token.union]) ∧
      compileF [Token.lit (Lit.char 'a'), Token.lit (Lit.char 'b'),
          Token.eof, Token.concat, Token.union] = some (Except.ok nfaAltEof) ∧
      isMatchFuel 50 nfaAltEof ['a', 'b'] = some [Match.noGroup 1] ∧
      byteLen ['a', 'b'] = 2 := by decide

/-- C4 counterexample: in the fused set built from `("l", a|aa$)`, input `aa`
yields two `Group` matches with the same label `l` — the ε-closure-recorded
match of length 1 and the end-of-input Eof match of length 2 — so the
collection has two `Group(l, _)` entries and the entry of length 1 is not the
maximum prefix length accepted under `l`. -/
theorem c4_duplicate_label_matches :
    NFASet.build [("l", nfaTriplet)] = Except.ok fusedTriplet ∧
      isMatchFuel 50 fusedTriplet ['a', 'a'] =
        some [Match.group "l" 1, Match.group "l" 2] := by decide

/-- C5 counterexample: fusing `[("l1", a), ("l2", b)]` leaves the appended
component's own `Eof` transition at index 4 and its own `Accept` at index 5,
so an `Eof` transition exists at an index other than `eof = 0` and the table
holds two `Eof` entries. -/
theorem c5_extra_eof_entries :
    NFASet.build [("l1", nfaCharA), ("l2", nfaCharB)] = Except.ok fusedPair ∧
      fusedPair.eof = 0 ∧
      fusedPair.transitions[4]? = some Transition.eof ∧
      fusedPair.transitions[5]? = some Transition.accept ∧
      countEof fusedPair.transitions = 2 := by decide

/-- Processing the `Label` state 2 of `nfaNestedStar` leaves the generation
counter and the generation marks of states 3 and 4 untouched. -/
theorem nestedStar_addState2 (fuel : Nat) (st : Step) (l : List Entry) (m : Matches)
    (g : Option String) (st2 : Step) (l2 : List Entry) (m2 : Matches)
    (h : addState nfaNestedStar fuel st l m g 2 = some (st2, l2, m2)) :
    st2.step = st.step ∧ st2.stepList[3]? = st.stepList[3]? ∧
      st2.stepList[4]? = st.stepList[4]? := by
  cases fuel with
  | zero => simp [addState] at h
  | succ n =>
    rw [addState] at h
    cases hgen : st.stepList[2]? with
    | none => rw [hgen] at h; simp at h
    | some gen =>
      rw [hgen] at h
      by_cases hst : gen = st.step
      · simp only [hst, if_pos rfl] at h
        obtain ⟨rfl, rfl, rfl⟩ := by simpa using h
        exact ⟨rfl, rfl, rfl⟩
      · simp only [if_neg hst] at h
        have htr : nfaNestedStar.transitions[2]? =
            some (Transition.label (Lit.char 'a') 3) := by decide
        rw [htr] at h
        simp only [Option.some.injEq] at h
        obtain ⟨rfl, rfl, rfl⟩ := h
        refine ⟨rfl, ?_, ?_⟩ <;>
          simp [Step.setVisited, List.getElem?_set_ne]

/-- The `Split` cycle 3 ⇄ 4 of `nfaNestedStar` exhausts any amount of fuel:
`add_state` diverges because `Split` states are never marked visited. -/
theorem nestedStar_loop (fuel : Nat) :
    ∀ (st : Step) (l : List Entry) (m : Matches) (g : Option String),
      st.stepList[3]? ≠ some st.step → st.stepList[4]? ≠ some st.step →
      addState nfaNestedStar fuel st l m g 3 = none ∧
        addState nfaNestedStar fuel st l m g 4 = none := by
  induction fuel with
  | zero => intro st l m g _ _; exact ⟨rfl, rfl⟩
  | succ n ih =>
    intro st l m g h3 h4
    constructor
    · rw [addState]
      cases hgen : st.stepList[3]? with
      | none => rfl
      | some gen =>
        have hne : ¬ gen = st.step := fun hh => h3 (by rw [hgen, hh])
        have htr : nfaNestedStar.transitions[3]? =
            some (Transition.split (some 2) (some 4)) := by decide
        simp only [if_neg hne, htr]
        cases h2 : addState nfaNestedStar n st l m g 2 with
        | none => rfl
        | some res =>
          obtain ⟨st2, l2, m2⟩ := res
          obtain ⟨hstep, hp3, hp4⟩ := nestedStar_addState2 n st l m g st2 l2 m2 h2
          exact (ih st2 l2 m2 g (by rw [hp3, hstep]; exact h3)
            (by rw [hp4, hstep]; exact h4)).2
    · rw [addState]
      cases hgen : st.stepList[4]? with
      | none => rfl
      | some gen =>
        have hne : ¬ gen = st.step := fun hh => h4 (by rw [hgen, hh])
        have htr : nfaNestedStar.transitions[4]? =
            some (Transition.split (some 3) (some 1)) := by decide
        simp only [if_neg hne, htr]
        rw [(ih st l m g h3 h4).1]

/-- C1: the claim's termination guarantee fails.  The postfix of `a**` (and of
`(a*)*`) compiles to `nfaNestedStar`, whose states 3 and 4 form a cycle of
`Split` transitions; since `add_state` never marks `Split` states visited, the
ε-closure recursion at the start of `is_match` descends forever (a stack
overflow in the source), for every input — modelled here as `none` for every
fuel bound. -/
theorem c1_nested_star_diverges :
    parsePF ['a', '*', '*'] =
        some (Except.ok [Token.lit (Lit.char 'a'), Token.kleeneS, Token.kleeneS]) ∧
      compileF [Token.lit (Lit.char 'a'), Token.kleeneS, Token.kleeneS] =
        some (Except.ok nfaNestedStar) ∧
      ∀ (fuel : Nat) (input : List Char), isMatchFuel fuel nfaNestedStar input = none := by
  refine ⟨by decide, by decide, ?_⟩
  intro fuel input
  have h := (nestedStar_loop fuel (Step.new nfaNestedStar.transitions.length)
    [] [] none (by decide) (by decide)).2
  have hstart : nfaNestedStar.start = 4 := rfl
  rw [isMatchFuel, hstart, h]

/-- `add_state` never changes the generation counter, the current character or
the consumed count; it only marks states in the current generation and appends
to the frontier. -/
theorem addState_basic (nfa : NFA) :
    ∀ (fuel : Nat) (st : Step) (list : List Entry) (ms : Matches) (g : Option String)
      (s : Nat) (st2 : Step) (list2 : List Entry) (ms2 : Matches),
      addState nfa fuel st list ms g s = some (st2, list2, ms2) →
      st2.step = st.step ∧ st2.currentChar = st.currentChar ∧ st2.consumed = st.consumed ∧
        (∀ i : Nat, st.stepList[i]? = some st.step → st2.stepList[i]? = some st.step) ∧
        ∃ suf, list2 = list ++ suf := by
  intro fuel
  induction fuel with
  | zero =>
    intro st list ms g s st2 list2 ms2 h
    simp [addState] at h
  | succ n ih =>
    intro st list ms g s st2 list2 ms2 h
    rw [addState] at h
    cases hgen : st.stepList[s]? with
    | none => rw [hgen] at h; simp at h
    | some gen =>
      rw [hgen] at h
      simp only [] at h
      by_cases hv : gen = st.step
      · rw [if_pos hv] at h
        obtain ⟨rfl, rfl, rfl⟩ := by simpa using h
        exact ⟨rfl, rfl, rfl, fun i hi => hi, [], by simp⟩
      · rw [if_neg hv] at h
        cases htr : nfa.transitions[s]? with
        | none => rw [htr] at h; simp at h
        | some t =>
          rw [htr] at h
          cases t with
          | split e1 e2 =>
            simp only [] at h
            cases e1 with
            | none =>
              simp only [] at h
              cases e2 with
              | none =>
                obtain ⟨rfl, rfl, rfl⟩ := by simpa using h
                exact ⟨rfl, rfl, rfl, fun i hi => hi, [], by simp⟩
              | some s2 => exact ih st list ms g s2 st2 list2 ms2 h
            | some s1 =>
              simp only [] at h
              cases h1 : addState nfa n st list ms g s1 with
              | none => rw [h1] at h; simp at h
              | some r1 =>
                obtain ⟨stA, listA, msA⟩ := r1
                rw [h1] at h
                simp only [] at h
                obtain ⟨hA1, hA2, hA3, hA4, sufA, hsufA⟩ :=
                  ih st list ms g s1 stA listA msA h1
                cases e2 with
                | none =>
                  obtain ⟨rfl, rfl, rfl⟩ := by simpa using h
                  exact ⟨hA1, hA2, hA3, hA4, sufA, hsufA⟩
                | some s2 =>
                  obtain ⟨hB1, hB2, hB3, hB4, sufB, hsufB⟩ :=
                    ih stA listA msA g s2 st2 list2 ms2 h
                  refine ⟨hB1.trans hA1, hB2.trans hA2, hB3.trans hA3, ?_, sufA ++ sufB, ?_⟩
                  · intro i hi
                    have h1i := hA4 i hi
                    rw [← hA1] at h1i
                    have h2i := hB4 i h1i
                    rwa [hA1] at h2i
                  · rw [hsufB, hsufA, List.append_assoc]
          | group l e => exact ih st list ms (some l) e st2 list2 ms2 h
          | label l e =>
            obtain ⟨rfl, rfl, rfl⟩ := by simpa using h
            refine ⟨rfl, rfl, rfl, ?_, [(g, s)], rfl⟩
            intro i hi
            rcases eq_or_ne i s with rfl | hne
            · have hlt : i < st.stepList.length := by
                by_contra hge
                rw [List.getElem?_eq_none (Nat.le_of_not_lt hge)] at hgen
                cases hgen
              simpa [Step.setVisited] using List.getElem?_set_eq_of_lt _ hlt
            · simpa [Step.setVisited, List.getElem?_set_ne (Ne.symm hne)] using hi
          | accept =>
            obtain ⟨rfl, rfl, rfl⟩ := by simpa using h
            refine ⟨rfl, rfl, rfl, ?_, [(g, s)], rfl⟩
            intro i hi
            rcases eq_or_ne i s with rfl | hne
            · have hlt : i < st.stepList.length := by
                by_contra hge
                rw [List.getElem?_eq_none (Nat.le_of_not_lt hge)] at hgen
                cases hgen
              simpa [Step.setVisited] using List.getElem?_set_eq_of_lt _ hlt
            · simpa [Step.setVisited, List.getElem?_set_ne (Ne.symm hne)] using hi
          | eof =>
            obtain ⟨rfl, rfl, rfl⟩ := by simpa using h
            refine ⟨rfl, rfl, rfl, ?_, [(g, s)], rfl⟩
            intro i hi
            rcases eq_or_ne i s with rfl | hne
            · have hlt : i < st.stepList.length := by
                by_contra hge
                rw [List.getElem?_eq_none (Nat.le_of_not_lt hge)] at hgen
                cases hgen
              simpa [Step.setVisited] using List.getElem?_set_eq_of_lt _ hlt
            · simpa [Step.setVisited, List.getElem?_set_ne (Ne.symm hne)] using hi

/-- Entries of `insertMatch` come from the original map or are the new pair. -/
theorem mem_insertMatch (k : Option String) (v : Nat) :
    ∀ (ms : Matches) (e : Option String × Nat), e ∈ insertMatch ms k v → e ∈ ms ∨ e = (k, v) := by
  intro ms
  induction ms with
  | nil => intro e he; simp [insertMatch] at he; exact Or.inr he
  | cons hd rest ih =>
    intro e he
    obtain ⟨k2, v2⟩ := hd
    rw [insertMatch] at he
    by_cases hk : k2 = k
    · rw [if_pos hk] at he
      rcases List.mem_cons.mp he with rfl | hmem
      · exact Or.inr rfl
      · exact Or.inl (List.mem_cons_of_mem _ hmem)
    · rw [if_neg hk] at he
      rcases List.mem_cons.mp he with rfl | hmem
      · exact Or.inl (List.mem_cons_self _ _)
      · rcases ih e hmem with hm | rfl
        · exact Or.inl (List.mem_cons_of_mem _ hm)
        · exact Or.inr rfl

/-- `insertMatch` preserves distinctness of keys. -/
theorem insertMatch_keysDistinct (k : Option String) (v : Nat) :
    ∀ ms : Matches, KeysDistinct ms → KeysDistinct (insertMatch ms k v) := by
  intro ms
  induction ms with
  | nil => intro _; simp [insertMatch, KeysDistinct]
  | cons hd rest ih =>
    intro h
    obtain ⟨k2, v2⟩ := hd
    rw [KeysDistinct, List.pairwise_cons] at h
    obtain ⟨hhd, htl⟩ := h
    rw [insertMatch]
    by_cases hk : k2 = k
    · rw [if_pos hk]
      rw [KeysDistinct, List.pairwise_cons]
      exact ⟨fun b hb => hk ▸ hhd b hb, htl⟩
    · rw [if_neg hk]
      rw [KeysDistinct, List.pairwise_cons]
      refine ⟨?_, ih htl⟩
      intro b hb
      rcases mem_insertMatch k v rest b hb with hm | rfl
      · exact hhd b hm
      · exact hk

/-- `add_state` keeps every listed state marked in the current generation, and
never duplicates a state in the frontier. -/
theorem addState_visited (nfa : NFA) :
    ∀ (fuel : Nat) (st : Step) (list : List Entry) (ms : Matches) (g : Option String)
      (s : Nat) (st2 : Step) (list2 : List Entry) (ms2 : Matches),
      addState nfa fuel st list ms g s = some (st2, list2, ms2) →
      AllVisited st list →
      AllVisited st2 list2 ∧ (DistinctStates list → DistinctStates list2) := by
  intro fuel
  induction fuel with
  | zero =>
    intro st list ms g s st2 list2 ms2 h
    simp [addState] at h
  | succ n ih =>
    intro st list ms g s st2 list2 ms2 h hav
    rw [addState] at h
    cases hgen : st.stepList[s]? with
    | none => rw [hgen] at h; simp at h
    | some gen =>
      rw [hgen] at h
      simp only [] at h
      by_cases hv : gen = st.step
      · rw [if_pos hv] at h
        obtain ⟨rfl, rfl, rfl⟩ := by simpa using h
        exact ⟨hav, fun hd => hd⟩
      · rw [if_neg hv] at h
        cases htr : nfa.transitions[s]? with
        | none => rw [htr] at h; simp at h
        | some t =>
          rw [htr] at h
          cases t with
          | split e1 e2 =>
            simp only [] at h
            cases e1 with
            | none =>
              simp only [] at h
              cases e2 with
              | none =>
                obtain ⟨rfl, rfl, rfl⟩ := by simpa using h
                exact ⟨hav, fun hd => hd⟩
              | some s2 => exact ih st list ms g s2 st2 list2 ms2 h hav
            | some s1 =>
              simp only [] at h
              cases h1 : addState nfa n st list ms g s1 with
              | none => rw [h1] at h; simp at h
              | some r1 =>
                obtain ⟨stA, listA, msA⟩ := r1
                rw [h1] at h
                simp only [] at h
                obtain ⟨havA, hdA⟩ := ih st list ms g s1 stA listA msA h1 hav
                cases e2 with
                | none =>
                  obtain ⟨rfl, rfl, rfl⟩ := by simpa using h
                  exact ⟨havA, hdA⟩
                | some s2 =>
                  obtain ⟨havB, hdB⟩ := ih stA listA msA g s2 st2 list2 ms2 h havA
                  exact ⟨havB, fun hd => hdB (hdA hd)⟩
          | group l e => exact ih st list ms (some l) e st2 list2 ms2 h hav
          | label l e =>
            obtain ⟨rfl, rfl, rfl⟩ := by simpa using h
            have hlt : s < st.stepList.length := by
              by_contra hge
              rw [List.getElem?_eq_none (Nat.le_of_not_lt hge)] at hgen
              cases hgen
            constructor
            · intro e2 he2
              rcases List.mem_append.mp he2 with hin | hnew
              · have := hav e2 hin
                rcases eq_or_ne e2.2 s with heq | hne
                · simpa [Step.setVisited, heq] using List.getElem?_set_eq_of_lt _ hlt
                · simpa [Step.setVisited, List.getElem?_set_ne (Ne.symm hne)] using this
              · have : e2 = (g, s) := by simpa using hnew
                subst this
                simpa [Step.setVisited] using List.getElem?_set_eq_of_lt _ hlt
            · intro hd
              rw [DistinctStates, List.pairwise_append]
              refine ⟨hd, by simp [DistinctStates], ?_⟩
              intro a ha b hb
              have hb2 : b = (g, s) := by simpa using hb
              subst hb2
              intro heq
              have := hav a ha
              rw [heq, hgen] at this
              exact hv (Option.some.inj this)
          | accept =>
            obtain ⟨rfl, rfl, rfl⟩ := by simpa using h
            have hlt : s < st.stepList.length := by
              by_contra hge
              rw [List.getElem?_eq_none (Nat.le_of_not_lt hge)] at hgen
              cases hgen
            constructor
            · intro e2 he2
              rcases List.mem_append.mp he2 with hin | hnew
              · have := hav e2 hin
                rcases eq_or_ne e2.2 s with heq | hne
                · simpa [Step.setVisited, heq] using List.getElem?_set_eq_of_lt _ hlt
                · simpa [Step.setVisited, List.getElem?_set_ne (Ne.symm hne)] using this
              · have : e2 = (g, s) := by simpa using hnew
                subst this
                simpa [Step.setVisited] using List.getElem?_set_eq_of_lt _ hlt
            · intro hd
              rw [DistinctStates, List.pairwise_append]
              refine ⟨hd, by simp [DistinctStates], ?_⟩
              intro a ha b hb
              have hb2 : b = (g, s) := by simpa using hb
              subst hb2
              intro heq
              have := hav a ha
              rw [heq, hgen] at this
              exact hv (Option.some.inj this)
          | eof =>
            obtain ⟨rfl, rfl, rfl⟩ := by simpa using h
            have hlt : s < st.stepList.length := by
              by_contra hge
              rw [List.getElem?_eq_none (Nat.le_of_not_lt hge)] at hgen
              cases hgen
            constructor
            · intro e2 he2
              rcases List.mem_append.mp he2 with hin | hnew
              · have := hav e2 hin
                rcases eq_or_ne e2.2 s with heq | hne
                · simpa [Step.setVisited, heq] using List.getElem?_set_eq_of_lt _ hlt
                · simpa [Step.setVisited, List.getElem?_set_ne (Ne.symm hne)] using this
              · have : e2 = (g, s) := by simpa using hnew
                subst this
                simpa [Step.setVisited] using List.getElem?_set_eq_of_lt _ hlt
            · intro hd
              rw [DistinctStates, List.pairwise_append]
              refine ⟨hd, by simp [DistinctStates], ?_⟩
              intro a ha b hb
              have hb2 : b = (g, s) := by simpa using hb
              subst hb2
              intro heq
              have := hav a ha
              rw [heq, hgen] at this
              exact hv (Option.some.inj this)

/-- `add_state` preserves distinctness of the recorded-match keys. -/
theorem addState_keysDistinct (nfa : NFA) :
    ∀ (fuel : Nat) (st : Step) (list : List Entry) (ms : Matches) (g : Option String)
      (s : Nat) (st2 : Step) (list2 : List Entry) (ms2 : Matches),
      addState nfa fuel st list ms g s = some (st2, list2, ms2) →
      KeysDistinct ms → KeysDistinct ms2 := by
  intro fuel
  induction fuel with
  | zero =>
    intro st list ms g s st2 list2 ms2 h
    simp [addState] at h
  | succ n ih =>
    intro st list ms g s st2 list2 ms2 h hkd
    rw [addState] at h
    cases hgen : st.stepList[s]? with
    | none => rw [hgen] at h; simp at h
    | some gen =>
      rw [hgen] at h
      simp only [] at h
      by_cases hv : gen = st.step
      · rw [if_pos hv] at h
        obtain ⟨rfl, rfl, rfl⟩ := by simpa using h
        exact hkd
      · rw [if_neg hv] at h
        cases htr : nfa.transitions[s]? with
        | none => rw [htr] at h; simp at h
        | some t =>
          rw [htr] at h
          cases t with
          | split e1 e2 =>
            simp only [] at h
            cases e1 with
            | none =>
              simp only [] at h
              cases e2 with
              | none =>
                obtain ⟨rfl, rfl, rfl⟩ := by simpa using h
                exact hkd
              | some s2 => exact ih st list ms g s2 st2 list2 ms2 h hkd
            | some s1 =>
              simp only [] at h
              cases h1 : addState nfa n st list ms g s1 with
              | none => rw [h1] at h; simp at h
              | some r1 =>
                obtain ⟨stA, listA, msA⟩ := r1
                rw [h1] at h
                simp only [] at h
                have hkdA := ih st list ms g s1 stA listA msA h1 hkd
                cases e2 with
                | none =>
                  obtain ⟨rfl, rfl, rfl⟩ := by simpa using h
                  exact hkdA
                | some s2 => exact ih stA listA msA g s2 st2 list2 ms2 h hkdA
          | group l e => exact ih st list ms (some l) e st2 list2 ms2 h hkd
          | label l e =>
            obtain ⟨rfl, rfl, rfl⟩ := by simpa using h
            by_cases hacc : s = nfa.accept
            · rw [if_pos hacc]
              exact insertMatch_keysDistinct _ _ _ hkd
            · rw [if_neg hacc]; exact hkd
          | accept =>
            obtain ⟨rfl, rfl, rfl⟩ := by simpa using h
            by_cases hacc : s = nfa.accept
            · rw [if_pos hacc]
              exact insertMatch_keysDistinct _ _ _ hkd
            · rw [if_neg hacc]; exact hkd
          | eof =>
            obtain ⟨rfl, rfl, rfl⟩ := by simpa using h
            exact hkd

/-- If no transition has an edge into the accept state and `add_state` is
called on a state other than the accept state, the recorded matches do not
change. -/
theorem addState_ms_of_noAcc (nfa : NFA)
    (hna : NoEdgeInto nfa.transitions nfa.accept) :
    ∀ (fuel : Nat) (st : Step) (list : List Entry) (ms : Matches) (g : Option String)
      (s : Nat) (st2 : Step) (list2 : List Entry) (ms2 : Matches),
      s ≠ nfa.accept →
      addState nfa fuel st list ms g s = some (st2, list2, ms2) →
      ms2 = ms := by
  intro fuel
  induction fuel with
  | zero =>
    intro st list ms g s st2 list2 ms2 _ h
    simp [addState] at h
  | succ n ih =>
    intro st list ms g s st2 list2 ms2 hs h
    rw [addState] at h
    cases hgen : st.stepList[s]? with
    | none => rw [hgen] at h; simp at h
    | some gen =>
      rw [hgen] at h
      simp only [] at h
      by_cases hv : gen = st.step
      · rw [if_pos hv] at h
        obtain ⟨rfl, rfl, rfl⟩ := by simpa using h
        rfl
      · rw [if_neg hv] at h
        cases htr : nfa.transitions[s]? with
        | none => rw [htr] at h; simp at h
        | some t =>
          rw [htr] at h
          have hmem := List.getElem?_mem htr
          cases t with
          | split e1 e2 =>
            have hsp := ((hna _ hmem).2.1 e1 e2 rfl)
            simp only [] at h
            cases e1 with
            | none =>
              simp only [] at h
              cases e2 with
              | none =>
                obtain ⟨rfl, rfl, rfl⟩ := by simpa using h
                rfl
              | some s2 =>
                refine ih st list ms g s2 st2 list2 ms2 ?_ h
                intro heq
                exact hsp.2 (by rw [heq])
            | some s1 =>
              simp only [] at h
              cases h1 : addState nfa n st list ms g s1 with
              | none => rw [h1] at h; simp at h
              | some r1 =>
                obtain ⟨stA, listA, msA⟩ := r1
                rw [h1] at h
                simp only [] at h
                have hA : msA = ms := by
                  refine ih st list ms g s1 stA listA msA ?_ h1
                  intro heq
                  exact hsp.1 (by rw [heq])
                cases e2 with
                | none =>
                  obtain ⟨rfl, rfl, rfl⟩ := by simpa using h
                  exact hA
                | some s2 =>
                  have hB : ms2 = msA := by
                    refine ih stA listA msA g s2 st2 list2 ms2 ?_ h
                    intro heq
                    exact hsp.2 (by rw [heq])
                  exact hB.trans hA
          | group l e =>
            refine ih st list ms (some l) e st2 list2 ms2 ?_ h
            exact (hna _ hmem).2.2 l e rfl
          | label l e =>
            obtain ⟨rfl, rfl, rfl⟩ := by simpa using h
            rw [if_neg hs]
          | accept =>
            obtain ⟨rfl, rfl, rfl⟩ := by simpa using h
            rw [if_neg hs]
          | eof =>
            obtain ⟨rfl, rfl, rfl⟩ := by simpa using h
            rfl

/-- When every ε-path from the processed state is guarded by a `Group` (or a
label is already active), `add_state` only pushes labelled frontier entries and
only records labelled matches. -/
theorem addState_labeled (nfa : NFA) :
    ∀ (fuel : Nat) (st : Step) (list : List Entry) (ms : Matches) (g : Option String)
      (s : Nat) (st2 : Step) (list2 : List Entry) (ms2 : Matches),
      addState nfa fuel st list ms g s = some (st2, list2, ms2) →
      (g.isSome = true ∨ Guarded nfa s) →
      AllLabeled list → KeysLabeled ms →
      AllLabeled list2 ∧ KeysLabeled ms2 := by
  intro fuel
  induction fuel with
  | zero =>
    intro st list ms g s st2 list2 ms2 h
    simp [addState] at h
  | succ n ih =>
    intro st list ms g s st2 list2 ms2 h hg hal hkl
    rw [addState] at h
    cases hgen : st.stepList[s]? with
    | none => rw [hgen] at h; simp at h
    | some gen =>
      rw [hgen] at h
      simp only [] at h
      by_cases hv : gen = st.step
      · rw [if_pos hv] at h
        obtain ⟨rfl, rfl, rfl⟩ := by simpa using h
        exact ⟨hal, hkl⟩
      · rw [if_neg hv] at h
        cases htr : nfa.transitions[s]? with
        | none => rw [htr] at h; simp at h
        | some t =>
          rw [htr] at h
          cases t with
          | split e1 e2 =>
            have hgs : ∀ x : Nat, (e1 = some x ∨ e2 = some x) →
                (g.isSome = true ∨ Guarded nfa x) := by
              intro x hx
              rcases hg with hgl | hgd
              · exact Or.inl hgl
              · cases hgd with
                | group s l e hh => rw [htr] at hh; cases hh
                | split s e1h e2h hh h1 h2 =>
                  rw [htr] at hh
                  injection hh with hh2
                  injection hh2 with he1 he2
                  rcases hx with h1x | h2x
                  · exact Or.inr (h1 x (by rw [← he1]; exact h1x))
                  · exact Or.inr (h2 x (by rw [← he2]; exact h2x))
            simp only [] at h
            cases e1 with
            | none =>
              simp only [] at h
              cases e2 with
              | none =>
                obtain ⟨rfl, rfl, rfl⟩ := by simpa using h
                exact ⟨hal, hkl⟩
              | some s2 =>
                exact ih st list ms g s2 st2 list2 ms2 h (hgs s2 (Or.inr rfl)) hal hkl
            | some s1 =>
              simp only [] at h
              cases h1 : addState nfa n st list ms g s1 with
              | none => rw [h1] at h; simp at h
              | some r1 =>
                obtain ⟨stA, listA, msA⟩ := r1
                rw [h1] at h
                simp only [] at h
                obtain ⟨halA, hklA⟩ :=
                  ih st list ms g s1 stA listA msA h1 (hgs s1 (Or.inl rfl)) hal hkl
                cases e2 with
                | none =>
                  obtain ⟨rfl, rfl, rfl⟩ := by simpa using h
                  exact ⟨halA, hklA⟩
                | some s2 =>
                  exact ih stA listA msA g s2 st2 list2 ms2 h (hgs s2 (Or.inr rfl)) halA hklA
          | group l e =>
            exact ih st list ms (some l) e st2 list2 ms2 h (Or.inl rfl) hal hkl
          | label l e =>
            have hgsome : g.isSome = true := by
              rcases hg with hgl | hgd
              · exact hgl
              · cases hgd with
                | group s l2 e2 hh => rw [htr] at hh; cases hh
                | split s e1h e2h hh h1 h2 => rw [htr] at hh; cases hh
            obtain ⟨rfl, rfl, rfl⟩ := by simpa using h
            constructor
            · intro e2 he2
              rcases List.mem_append.mp he2 with hin | hnew
              · exact hal e2 hin
              · have : e2 = (g, s) := by simpa using hnew
                subst this
                exact hgsome
            · by_cases hacc : s = nfa.accept
              · rw [if_pos hacc]
                intro e2 he2
                rcases mem_insertMatch _ _ _ e2 he2 with hm | rfl
                · exact hkl e2 hm
                · exact hgsome
              · rw [if_neg hacc]; exact hkl
          | accept =>
            have hgsome : g.isSome = true := by
              rcases hg with hgl | hgd
              · exact hgl
              · cases hgd with
                | group s l2 e2 hh => rw [htr] at hh; cases hh
                | split s e1h e2h hh h1 h2 => rw [htr] at hh; cases hh
            obtain ⟨rfl, rfl, rfl⟩ := by simpa using h
            constructor
            · intro e2 he2
              rcases List.mem_append.mp he2 with hin | hnew
              · exact hal e2 hin
              · have : e2 = (g, s) := by simpa using hnew
                subst this
                exact hgsome
            · by_cases hacc : s = nfa.accept
              · rw [if_pos hacc]
                intro e2 he2
                rcases mem_insertMatch _ _ _ e2 he2 with hm | rfl
                · exact hkl e2 hm
                · exact hgsome
              · rw [if_neg hacc]; exact hkl
          | eof =>
            have hgsome : g.isSome = true := by
              rcases hg with hgl | hgd
              · exact hgl
              · cases hgd with
                | group s l2 e2 hh => rw [htr] at hh; cases hh
                | split s e1h e2h hh h1 h2 => rw [htr] at hh; cases hh
            obtain ⟨rfl, rfl, rfl⟩ := by simpa using h
            refine ⟨?_, hkl⟩
            intro e2 he2
            rcases List.mem_append.mp he2 with hin | hnew
            · exact hal e2 hin
            · have : e2 = (g, s) := by simpa using hnew
              subst this
              exact hgsome

/-- One character step keeps the `next` frontier visited-and-distinct and the
match keys distinct. -/
theorem stepFn_props (nfa : NFA) (fuel : Nat) :
    ∀ (cur : List Entry) (st : Step) (next : List Entry) (ms : Matches)
      (st2 : Step) (next2 : List Entry) (ms2 : Matches),
      stepFn nfa fuel st cur next ms = some (st2, next2, ms2) →
      (AllVisited st next → AllVisited st2 next2 ∧ (DistinctStates next → DistinctStates next2)) ∧
        (KeysDistinct ms → KeysDistinct ms2) := by
  intro cur
  induction cur with
  | nil =>
    intro st next ms st2 next2 ms2 h
    rw [stepFn] at h
    obtain ⟨rfl, rfl, rfl⟩ := by simpa using h
    exact ⟨fun hv => ⟨hv, fun hd => hd⟩, fun hk => hk⟩
  | cons hd cur ih =>
    intro st next ms st2 next2 ms2 h
    obtain ⟨g, s⟩ := hd
    rw [stepFn] at h
    cases htr : nfa.transitions[s]? with
    | none => rw [htr] at h; simp at h
    | some t =>
      rw [htr] at h
      cases t with
      | label cond e =>
        simp only [] at h
        by_cases hacc : cond.accepts st.currentChar
        · rw [if_pos hacc] at h
          cases h1 : addState nfa fuel st next ms g e with
          | none => rw [h1] at h; simp at h
          | some r1 =>
            obtain ⟨stA, nextA, msA⟩ := r1
            rw [h1] at h
            simp only [] at h
            obtain ⟨ihA, ihK⟩ := ih stA nextA msA st2 next2 ms2 h
            constructor
            · intro hv
              obtain ⟨hvA, hdA⟩ := addState_visited nfa fuel st next ms g e stA nextA msA h1 hv
              obtain ⟨hv2, hd2⟩ := ihA hvA
              exact ⟨hv2, fun hd => hd2 (hdA hd)⟩
            · intro hk
              exact ihK (addState_keysDistinct nfa fuel st next ms g e stA nextA msA h1 hk)
        · rw [if_neg hacc] at h
          exact ih st next ms st2 next2 ms2 h
      | split e1 e2 => simp at h
      | group l e => simp at h
      | accept => exact ih st next ms st2 next2 ms2 h
      | eof => exact ih st next ms st2 next2 ms2 h

/-- One character step does not record any match when no edge enters the
accept state. -/
theorem stepFn_ms_of_noAcc (nfa : NFA)
    (hna : NoEdgeInto nfa.transitions nfa.accept) (fuel : Nat) :
    ∀ (cur : List Entry) (st : Step) (next : List Entry) (ms : Matches)
      (st2 : Step) (next2 : List Entry) (ms2 : Matches),
      stepFn nfa fuel st cur next ms = some (st2, next2, ms2) →
      ms2 = ms := by
  intro cur
  induction cur with
  | nil =>
    intro st next ms st2 next2 ms2 h
    rw [stepFn] at h
    obtain ⟨rfl, rfl, rfl⟩ := by simpa using h
    rfl
  | cons hd cur ih =>
    intro st next ms st2 next2 ms2 h
    obtain ⟨g, s⟩ := hd
    rw [stepFn] at h
    cases htr : nfa.transitions[s]? with
    | none => rw [htr] at h; simp at h
    | some t =>
      rw [htr] at h
      cases t with
      | label cond e =>
        simp only [] at h
        by_cases hacc : cond.accepts st.currentChar
        · rw [if_pos hacc] at h
          cases h1 : addState nfa fuel st next ms g e with
          | none => rw [h1] at h; simp at h
          | some r1 =>
            obtain ⟨stA, nextA, msA⟩ := r1
            rw [h1] at h
            simp only [] at h
            have he : e ≠ nfa.accept :=
              (hna _ (List.getElem?_mem htr)).1 cond e rfl
            have hA : msA = ms :=
              addState_ms_of_noAcc nfa hna fuel st next ms g e stA nextA msA he h1
            exact (ih stA nextA msA st2 next2 ms2 h).trans hA
        · rw [if_neg hacc] at h
          exact ih st next ms st2 next2 ms2 h
      | split e1 e2 => simp at h
      | group l e => simp at h
      | accept => exact ih st next ms st2 next2 ms2 h
      | eof => exact ih st next ms st2 next2 ms2 h

/-- One character step keeps every frontier entry and match key labelled when
the incoming frontier is labelled. -/
theorem stepFn_labeled (nfa : NFA) (fuel : Nat) :
    ∀ (cur : List Entry) (st : Step) (next : List Entry) (ms : Matches)
      (st2 : Step) (next2 : List Entry) (ms2 : Matches),
      stepFn nfa fuel st cur next ms = some (st2, next2, ms2) →
      AllLabeled cur → AllLabeled next → KeysLabeled ms →
      AllLabeled next2 ∧ KeysLabeled ms2 := by
  intro cur
  induction cur with
  | nil =>
    intro st next ms st2 next2 ms2 h _ hnl hkl
    rw [stepFn] at h
    obtain ⟨rfl, rfl, rfl⟩ := by simpa using h
    exact ⟨hnl, hkl⟩
  | cons hd cur ih =>
    intro st next ms st2 next2 ms2 h hcl hnl hkl
    obtain ⟨g, s⟩ := hd
    have hg : g.isSome = true := hcl (g, s) (List.mem_cons_self _ _)
    have hcl2 : AllLabeled cur := fun e he => hcl e (List.mem_cons_of_mem _ he)
    rw [stepFn] at h
    cases htr : nfa.transitions[s]? with
    | none => rw [htr] at h; simp at h
    | some t =>
      rw [htr] at h
      cases t with
      | label cond e =>
        simp only [] at h
        by_cases hacc : cond.accepts st.currentChar
        · rw [if_pos hacc] at h
          cases h1 : addState nfa fuel st next ms g e with
          | none => rw [h1] at h; simp at h
          | some r1 =>
            obtain ⟨stA, nextA, msA⟩ := r1
            rw [h1] at h
            simp only [] at h
            obtain ⟨hnlA, hklA⟩ :=
              addState_labeled nfa fuel st next ms g e stA nextA msA h1 (Or.inl hg) hnl hkl
            exact ih stA nextA msA st2 next2 ms2 h hcl2 hnlA hklA
        · rw [if_neg hacc] at h
          exact ih st next ms st2 next2 ms2 h hcl2 hnl hkl
      | split e1 e2 => simp at h
      | group l e => simp at h
      | accept => exact ih st next ms st2 next2 ms2 h hcl2 hnl hkl
      | eof => exact ih st next ms st2 next2 ms2 h hcl2 hnl hkl

/-- Over the whole input loop: the final frontier is distinct and the match
keys stay distinct. -/
theorem mainLoop_frontier (nfa : NFA) (fuel : Nat) :
    ∀ (input : List Char) (st : Step) (cur : List Entry) (ms : Matches)
      (st2 : Step) (cur2 : List Entry) (ms2 : Matches),
      mainLoop nfa fuel st cur ms input = some (st2, cur2, ms2) →
      AllVisited st cur → DistinctStates cur →
      DistinctStates cur2 := by
  intro input
  induction input with
  | nil =>
    intro st cur ms st2 cur2 ms2 h _ hd
    rw [mainLoop] at h
    obtain ⟨rfl, rfl, rfl⟩ := by simpa using h
    exact hd
  | cons c rest ih =>
    intro st cur ms st2 cur2 ms2 h _ _
    rw [mainLoop] at h
    cases h1 : stepFn nfa fuel (st.nextStep c) cur [] ms with
    | none => rw [h1] at h; simp at h
    | some r1 =>
      obtain ⟨stA, nextA, msA⟩ := r1
      rw [h1] at h
      simp only [] at h
      obtain ⟨hvis, _⟩ := stepFn_props nfa fuel cur (st.nextStep c) [] ms stA nextA msA h1
      obtain ⟨hvA, hdA⟩ := hvis (by intro e he; cases he)
      exact ih stA nextA msA st2 cur2 ms2 h hvA (hdA List.Pairwise.nil)

/-- Over the whole input loop the match keys stay distinct. -/
theorem mainLoop_keysDistinct (nfa : NFA) (fuel : Nat) :
    ∀ (input : List Char) (st : Step) (cur : List Entry) (ms : Matches)
      (st2 : Step) (cur2 : List Entry) (ms2 : Matches),
      mainLoop nfa fuel st cur ms input = some (st2, cur2, ms2) →
      KeysDistinct ms → KeysDistinct ms2 := by
  intro input
  induction input with
  | nil =>
    intro st cur ms st2 cur2 ms2 h hk
    rw [mainLoop] at h
    obtain ⟨rfl, rfl, rfl⟩ := by simpa using h
    exact hk
  | cons c rest ih =>
    intro st cur ms st2 cur2 ms2 h hk
    rw [mainLoop] at h
    cases h1 : stepFn nfa fuel (st.nextStep c) cur [] ms with
    | none => rw [h1] at h; simp at h
    | some r1 =>
      obtain ⟨stA, nextA, msA⟩ := r1
      rw [h1] at h
      simp only [] at h
      obtain ⟨_, hkeys⟩ := stepFn_props nfa fuel cur (st.nextStep c) [] ms stA nextA msA h1
      exact ih stA nextA msA st2 cur2 ms2 h (hkeys hk)

/-- Over the whole input loop the matches never change when no edge enters the
accept state. -/
theorem mainLoop_ms_of_noAcc (nfa : NFA)
    (hna : NoEdgeInto nfa.transitions nfa.accept) (fuel : Nat) :
    ∀ (input : List Char) (st : Step) (cur : List Entry) (ms : Matches)
      (st2 : Step) (cur2 : List Entry) (ms2 : Matches),
      mainLoop nfa fuel st cur ms input = some (st2, cur2, ms2) →
      ms2 = ms := by
  intro input
  induction input with
  | nil =>
    intro st cur ms st2 cur2 ms2 h
    rw [mainLoop] at h
    obtain ⟨rfl, rfl, rfl⟩ := by simpa using h
    rfl
  | cons c rest ih =>
    intro st cur ms st2 cur2 ms2 h
    rw [mainLoop] at h
    cases h1 : stepFn nfa fuel (st.nextStep c) cur [] ms with
    | none => rw [h1] at h; simp at h
    | some r1 =>
      obtain ⟨stA, nextA, msA⟩ := r1
      rw [h1] at h
      simp only [] at h
      have hA := stepFn_ms_of_noAcc nfa hna fuel cur (st.nextStep c) [] ms stA nextA msA h1
      exact (ih stA nextA msA st2 cur2 ms2 h).trans hA

/-- Over the whole input loop the frontier and match keys stay labelled. -/
theorem mainLoop_labeled (nfa : NFA) (fuel : Nat) :
    ∀ (input : List Char) (st : Step) (cur : List Entry) (ms : Matches)
      (st2 : Step) (cur2 : List Entry) (ms2 : Matches),
      mainLoop nfa fuel st cur ms input = some (st2, cur2, ms2) →
      AllLabeled cur → KeysLabeled ms →
      AllLabeled cur2 ∧ KeysLabeled ms2 := by
  intro input
  induction input with
  | nil =>
    intro st cur ms st2 cur2 ms2 h hc hk
    rw [mainLoop] at h
    obtain ⟨rfl, rfl, rfl⟩ := by simpa using h
    exact ⟨hc, hk⟩
  | cons c rest ih =>
    intro st cur ms st2 cur2 ms2 h hc hk
    rw [mainLoop] at h
    cases h1 : stepFn nfa fuel (st.nextStep c) cur [] ms with
    | none => rw [h1] at h; simp at h
    | some r1 =>
      obtain ⟨stA, nextA, msA⟩ := r1
      rw [h1] at h
      simp only [] at h
      obtain ⟨hcA, hkA⟩ := stepFn_labeled nfa fuel cur (st.nextStep c) [] ms stA nextA msA h1
        hc (by intro e he; cases he) hk
      exact ih stA nextA msA st2 cur2 ms2 h hcA hkA

/-- A frontier with pairwise-distinct states contributes at most one
end-of-input entry. -/
theorem eofEntries_len_le_one (k v : Nat) :
    ∀ l : List Entry, DistinctStates l →
      (l.filterMap fun e => if e.2 = k then some (e.1, v) else none).length ≤ 1 := by
  intro l
  induction l with
  | nil => intro _; simp
  | cons e l ih =>
    intro hd
    rw [DistinctStates, List.pairwise_cons] at hd
    obtain ⟨hhd, htl⟩ := hd
    rw [List.filterMap_cons]
    by_cases hk : e.2 = k
    · rw [if_pos hk]
      have hnil : (l.filterMap fun e => if e.2 = k then some (e.1, v) else none) = [] := by
        rw [List.filterMap_eq_nil_iff]
        intro a ha
        rw [if_neg]
        intro hak
        exact hhd a ha (hk.trans hak.symm)
      simp [hnil]
    · rw [if_neg hk]
      exact ih htl

/-- Every end-of-input entry carries the input's byte length. -/
theorem eofEntries_snd (k v : Nat) (l : List Entry) :
    ∀ e ∈ (l.filterMap fun e => if e.2 = k then some (e.1, v) else none), e.2 = v := by
  intro e he
  rw [List.mem_filterMap] at he
  obtain ⟨a, _, ha⟩ := he
  by_cases hk : a.2 = k
  · rw [if_pos hk] at ha
    cases ha
    rfl
  · rw [if_neg hk] at ha
    cases ha

/-- C4 (amended): for every NFA and input, a returned match collection splits
into the ε-closure-recorded matches — at most one per label, the recorded map
overwrites shorter prefixes — followed by at most one end-of-input Eof entry
whose length is the input's byte length.  The Eof entry may duplicate a label
already present among the recorded matches (see the counterexample), and for a
fused set only the base component's `$` can produce it. -/
theorem c4_match_collection_shape (nfa : NFA) (input : List Char) (fuel : Nat)
    (res : List Match) (h : isMatchFuel fuel nfa input = some res) :
    ∃ ms eofs : Matches,
      res = ms.map toMatch ++ eofs.map toMatch ∧
        KeysDistinct ms ∧ eofs.length ≤ 1 ∧ ∀ e ∈ eofs, e.2 = byteLen input := by
  rw [isMatchFuel] at h
  cases h1 : addState nfa fuel (Step.new nfa.transitions.length) [] [] none nfa.start with
  | none => rw [h1] at h; simp at h
  | some r1 =>
    obtain ⟨st1, cur1, ms1⟩ := r1
    rw [h1] at h
    simp only [] at h
    cases h2 : mainLoop nfa fuel st1 cur1 ms1 input with
    | none => rw [h2] at h; simp at h
    | some r2 =>
      obtain ⟨st2, cur2, ms2⟩ := r2
      rw [h2] at h
      simp only [] at h
      have hres := (Option.some.inj h).symm
      obtain ⟨hv1, hd1⟩ := addState_visited nfa fuel _ [] [] none nfa.start st1 cur1 ms1 h1
        (by intro e he; cases he)
      have hk1 : KeysDistinct ms1 :=
        addState_keysDistinct nfa fuel _ [] [] none nfa.start st1 cur1 ms1 h1
          (by rw [KeysDistinct]; exact List.Pairwise.nil)
      have hd2 := mainLoop_frontier nfa fuel input st1 cur1 ms1 st2 cur2 ms2 h2 hv1
        (hd1 List.Pairwise.nil)
      have hk2 := mainLoop_keysDistinct nfa fuel input st1 cur1 ms1 st2 cur2 ms2 h2 hk1
      refine ⟨ms2, cur2.filterMap fun e =>
        if e.2 = nfa.eof then some (e.1, byteLen input) else none, ?_, hk2, ?_, ?_⟩
      · rw [hres, List.map_append]
      · exact eofEntries_len_le_one nfa.eof (byteLen input) cur2 hd2
      · exact eofEntries_snd nfa.eof (byteLen input) cur2

/-- C4 witness: the amended shape evaluated on the fused `a|aa$` set. -/
theorem c4_match_collection_shape_witness :
    ∃ ms eofs : Matches,
      [Match.group "l" 1, Match.group "l" 2] = ms.map toMatch ++ eofs.map toMatch ∧
        KeysDistinct ms ∧ eofs.length ≤ 1 ∧ ∀ e ∈ eofs, e.2 = byteLen ['a', 'a'] :=
  c4_match_collection_shape fusedTriplet ['a', 'a'] 50
    [Match.group "l" 1, Match.group "l" 2] (by decide)

/-- Lookup is stable under appending to the arena. -/
theorem getElem?_append_some {α : Type} (l l2 : List α) (i : Nat) (t : α)
    (h : l[i]? = some t) : (l ++ l2)[i]? = some t := by
  have hi : i < l.length := by
    by_contra hge
    rw [List.getElem?_eq_none (Nat.le_of_not_lt hge)] at h
    cases h
  rw [List.getElem?_append, if_pos hi]
  exact h

/-- Guardedness is stable under extending the arena. -/
theorem Guarded_mono (nfa nfa2 : NFA)
    (hpre : ∀ (i : Nat) (t : Transition),
      nfa.transitions[i]? = some t → nfa2.transitions[i]? = some t) :
    ∀ s, Guarded nfa s → Guarded nfa2 s := by
  intro s hg
  induction hg with
  | group s l e h => exact Guarded.group s l e (hpre s _ h)
  | split s e1 e2 h h1 h2 ih1 ih2 =>
    exact Guarded.split s e1 e2 (hpre s _ h) ih1 ih2

/-- Wrapping an NFA in a fresh `Group` makes its start guarded. -/
theorem newGroupState_guarded (nfa : NFA) (marker : String) :
    Guarded (nfa.newGroupState marker) (nfa.newGroupState marker).start := by
  refine Guarded.group _ marker nfa.start ?_
  show (nfa.transitions ++ [Transition.group marker nfa.start])[nfa.transitions.length]? = _
  exact List.getElem?_concat_length _ _

/-- One fusion step keeps the start guarded. -/
theorem fuseStep_guarded (base : NFA) (p : String × NFA)
    (h : Guarded base base.start) :
    Guarded (fuseStep base p) (fuseStep base p).start := by
  have hsplit : (fuseStep base p).transitions[(fuseStep base p).start]? =
      some (Transition.split (some base.start)
        (some ((p.2.newGroupState p.1).start + base.transitions.length))) := by
    show ((base.transitions ++ _) ++ [Transition.split _ _])[(base.transitions ++ _).length]? = _
    exact List.getElem?_concat_length _ _
  refine Guarded.split _ _ _ hsplit ?_ ?_
  · intro x hx
    injection hx with hx
    subst hx
    refine Guarded_mono base _ ?_ _ h
    intro i t ht
    exact getElem?_append_some _ _ _ _ (getElem?_append_some _ _ _ _ ht)
  · intro x hx
    injection hx with hx
    subst hx
    refine Guarded.group _ p.1 (p.2.start + base.transitions.length) ?_
    have hwrap : (p.2.newGroupState p.1).transitions[(p.2.newGroupState p.1).start]? =
        some (Transition.group p.1 p.2.start) := List.getElem?_concat_length _ _
    have hmap : ((p.2.newGroupState p.1).transitions.map
        (fuseTransition (p.2.newGroupState p.1).accept base.accept
          base.transitions.length))[(p.2.newGroupState p.1).start]? =
        some (Transition.group p.1 (p.2.start + base.transitions.length)) := by
      rw [List.getElem?_map, hwrap]
      rfl
    have hshift : ((base.transitions ++ (p.2.newGroupState p.1).transitions.map
        (fuseTransition (p.2.newGroupState p.1).accept base.accept
          base.transitions.length)))[base.transitions.length +
            (p.2.newGroupState p.1).start]? =
        some (Transition.group p.1 (p.2.start + base.transitions.length)) := by
      rw [List.getElem?_append, if_neg (by omega)]
      rw [show base.transitions.length + (p.2.newGroupState p.1).start -
        base.transitions.length = (p.2.newGroupState p.1).start from by omega]
      exact hmap
    show ((base.transitions ++ _) ++ [Transition.split _ _])[_]? = _
    rw [Nat.add_comm base.transitions.length ((p.2.newGroupState p.1).start)] at hshift
    exact getElem?_append_some _ _ _ _ hshift

/-- The fused start of `NFASet::build` is guarded: every ε-path from it crosses
a component's `Group` wrapper before reaching any other state kind. -/
theorem build_guarded (pairs : List (String × NFA)) (fused : NFA)
    (h : NFASet.build pairs = .ok fused) : Guarded fused fused.start := by
  rw [NFASet.build] at h
  cases hl : pairs.getLast? with
  | none => rw [hl] at h; cases h
  | some p =>
    obtain ⟨marker, nfa0⟩ := p
    rw [hl] at h
    simp only [] at h
    have hf : fused = pairs.dropLast.foldl fuseStep (nfa0.newGroupState marker) := by
      cases h; rfl
    subst hf
    have hbase := newGroupState_guarded nfa0 marker
    generalize nfa0.newGroupState marker = base at hbase ⊢
    induction pairs.dropLast generalizing base with
    | nil => exact hbase
    | cons q rest ih =>
      rw [List.foldl_cons]
      exact ih (fuseStep base q) (fuseStep_guarded base q hbase)

/-- C8: every match returned by `is_match` on a fused `NFASet` carries a
capture label — the `NoGroup` arm of `Token::next_match` is unreachable.  The
fused start reaches component states only through the per-component `Group`
wrappers, and the active label, once set, is never cleared. -/
theorem c8_all_matches_labeled (pairs : List (String × NFA)) (fused : NFA)
    (hb : NFASet.build pairs = .ok fused)
    (input : List Char) (fuel : Nat) (res : List Match)
    (h : isMatchFuel fuel fused input = some res) :
    ∀ m ∈ res, ∃ l n, m = Match.group l n := by
  have hg := build_guarded pairs fused hb
  rw [isMatchFuel] at h
  cases h1 : addState fused fuel (Step.new fused.transitions.length) [] [] none fused.start with
  | none => rw [h1] at h; simp at h
  | some r1 =>
    obtain ⟨st1, cur1, ms1⟩ := r1
    rw [h1] at h
    simp only [] at h
    cases h2 : mainLoop fused fuel st1 cur1 ms1 input with
    | none => rw [h2] at h; simp at h
    | some r2 =>
      obtain ⟨st2, cur2, ms2⟩ := r2
      rw [h2] at h
      simp only [] at h
      have hres := (Option.some.inj h).symm
      obtain ⟨hal1, hkl1⟩ := addState_labeled fused fuel _ [] [] none fused.start st1 cur1 ms1
        h1 (Or.inr hg) (by intro e he; cases he) (by intro e he; cases he)
      obtain ⟨hal2, hkl2⟩ :=
        mainLoop_labeled fused fuel input st1 cur1 ms1 st2 cur2 ms2 h2 hal1 hkl1
      intro m hm
      rw [hres, List.mem_map] at hm
      obtain ⟨p, hp, rfl⟩ := hm
      have hps : p.1.isSome = true := by
        rcases List.mem_append.mp hp with hpm | hpe
        · exact hkl2 p hpm
        · rw [List.mem_filterMap] at hpe
          obtain ⟨a, ha, hfa⟩ := hpe
          by_cases hk : a.2 = fused.eof
          · rw [if_pos hk] at hfa
            cases hfa
            exact hal2 a ha
          · rw [if_neg hk] at hfa
            cases hfa
      obtain ⟨l, hl⟩ := Option.isSome_iff_exists.mp hps
      obtain ⟨p1, p2⟩ := p
      cases hl
      exact ⟨l, p2, rfl⟩

/-- C8 witness: the labelled-match theorem evaluated on the fused single-pair
set `("w", a)` and input `a`. -/
theorem c8_all_matches_labeled_witness :
    NFASet.build [("w", nfaCharA)] = Except.ok fusedSingleA ∧
      ∀ m ∈ [Match.group "w" 1], ∃ l n, m = Match.group l n :=
  ⟨by decide, c8_all_matches_labeled [("w", nfaCharA)] fusedSingleA (by decide)
    ['a'] 50 [Match.group "w" 1] (by decide)⟩

/-- Appending a transition whose edges avoid `acc` preserves `NoEdgeInto`. -/
theorem noEdge_push (ts : List Transition) (t : Transition) (acc : Nat)
    (hno : NoEdgeInto ts acc)
    (hl : ∀ l e, t = Transition.label l e → e ≠ acc)
    (hs : ∀ e1 e2, t = Transition.split e1 e2 → e1 ≠ some acc ∧ e2 ≠ some acc)
    (hg : ∀ g e, t = Transition.group g e → e ≠ acc) :
    NoEdgeInto (ts ++ [t]) acc := by
  intro t2 ht2
  rcases List.mem_append.mp ht2 with hm | hm
  · exact hno t2 hm
  · have : t2 = t := by simpa using hm
    subst this
    exact ⟨hl, hs, hg⟩

/-- Patching one dangling out-edge to a non-accept target preserves
`NoEdgeInto` and the arena length. -/
theorem patchOne_props (ts : List Transition) (o tgt acc : Nat) (ts2 : List Transition)
    (h : patchOne ts o tgt = some ts2) (hno : NoEdgeInto ts acc) (ht : tgt ≠ acc) :
    NoEdgeInto ts2 acc ∧ ts2.length = ts.length := by
  rw [patchOne] at h
  cases hel : ts[o]? with
  | none => rw [hel] at h; simp at h
  | some t =>
    rw [hel] at h
    cases t with
    | label l e =>
      simp only [] at h
      have hts2 : ts2 = ts.set o (Transition.label l tgt) := (Option.some.inj h).symm
      subst hts2
      refine ⟨?_, List.length_set _ _ _⟩
      intro t2 ht2
      rcases List.mem_or_eq_of_mem_set ht2 with hm | rfl
      · exact hno t2 hm
      · refine ⟨?_, ?_, ?_⟩
        · intro l2 e2 he; injection he with h1 h2; subst h2; exact ht
        · intro e1 e2 he; cases he
        · intro g e2 he; cases he
    | split e1 e2 =>
      simp only [] at h
      have hts2 : ts2 = ts.set o (Transition.split e1 (some tgt)) := (Option.some.inj h).symm
      subst hts2
      refine ⟨?_, List.length_set _ _ _⟩
      intro t2 ht2
      rcases List.mem_or_eq_of_mem_set ht2 with hm | rfl
      · exact hno t2 hm
      · refine ⟨?_, ?_, ?_⟩
        · intro l2 e3 he; cases he
        · intro e3 e4 he
          injection he with h1 h2
          subst h1; subst h2
          refine ⟨((hno _ (List.getElem?_mem hel)).2.1 e1 e2 rfl).1, ?_⟩
          intro hc
          exact ht (Option.some.inj hc)
        · intro g e3 he; cases he
    | group g e => simp at h
    | eof => simp at h
    | accept => simp at h

/-- Patching a fragment's out-list to a non-accept target preserves
`NoEdgeInto` and the arena length. -/
theorem patchOut_props (tgt acc : Nat) :
    ∀ (out : List Nat) (ts ts2 : List Transition),
      patchOut ts out tgt = some ts2 → NoEdgeInto ts acc → tgt ≠ acc →
      NoEdgeInto ts2 acc ∧ ts2.length = ts.length := by
  intro out
  induction out with
  | nil =>
    intro ts ts2 h hno _
    rw [patchOut] at h
    exact ⟨(Option.some.inj h).symm ▸ hno, by rw [← Option.some.inj h]⟩
  | cons o rest ih =>
    intro ts ts2 h hno ht
    rw [patchOut] at h
    cases h1 : patchOne ts o tgt with
    | none => rw [h1] at h; simp at h
    | some tsA =>
      rw [h1] at h
      simp only [] at h
      obtain ⟨hnoA, hlenA⟩ := patchOne_props ts o tgt acc tsA h1 hno ht
      obtain ⟨hno2, hlen2⟩ := ih tsA ts2 h hnoA ht
      exact ⟨hno2, hlen2.trans hlenA⟩

/-- One compile-loop token preserves the compile invariant. -/
theorem compileStep_inv (nfa : NFA) (stack : List Frag) (tok : Token)
    (nfa2 : NFA) (stack2 : List Frag)
    (h : compileStep nfa stack tok = some (.ok (nfa2, stack2)))
    (hinv : CompInv nfa stack) : CompInv nfa2 stack2 := by
  obtain ⟨hacc, heof, hlen, hno, hstk⟩ := hinv
  cases tok with
  | kleeneS =>
    rw [compileStep.eq_def] at h
    simp only [] at h
    cases stack with
    | nil => simp at h
    | cons e stack =>
      simp only [NFA.newSplitState] at h
      cases hp : NFA.patch { nfa with
          transitions := nfa.transitions ++ [Transition.split (some e.start) none] }
          e nfa.transitions.length with
      | none => rw [hp] at h; simp at h
      | some nfap =>
        rw [hp] at h
        simp only [] at h
        obtain ⟨h1, h2⟩ : nfap = nfa2 ∧
            (⟨nfa.transitions.length, [nfa.transitions.length]⟩ : Frag) :: stack = stack2 := by
          simpa using h
        subst h1; subst h2
        rw [NFA.patch] at hp
        cases hpo : patchOut (nfa.transitions ++ [Transition.split (some e.start) none])
            e.out nfa.transitions.length with
        | none => rw [hpo] at hp; simp at hp
        | some ts2 =>
          rw [hpo] at hp
          simp only [Option.map_some'] at hp
          have hne : nfa.transitions.length ≠ 1 := by omega
          have hnoApp : NoEdgeInto (nfa.transitions ++ [Transition.split (some e.start) none]) 1 :=
            noEdge_push _ _ _ hno (by intro l e2 he; cases he)
              (by intro e1 e2 he
                  injection he with h1 h2
                  subst h1; subst h2
                  exact ⟨by intro hc; exact hstk e (List.mem_cons_self _ _) (Option.some.inj hc),
                    by intro hc; cases hc⟩)
              (by intro g e2 he; cases he)
          obtain ⟨hno2, hlen2⟩ := patchOut_props nfa.transitions.length 1 e.out _ ts2 hpo hnoApp hne
          have hnfa2 : nfap = { nfa with transitions := ts2 } := (Option.some.inj hp).symm
          subst hnfa2
          refine ⟨hacc, heof, ?_, hno2, ?_⟩
          · simp only []
            rw [hlen2]
            simp only [List.length_append, List.length_cons, List.length_nil]
            omega
          · intro f hf
            rcases List.mem_cons.mp hf with rfl | hm
            · exact hne
            · exact hstk f (List.mem_cons_of_mem _ hm)
  | union =>
    rw [compileStep.eq_def] at h
    simp only [] at h
    cases stack with
    | nil => simp at h
    | cons e2 stack =>
      cases stack with
      | nil => simp at h
      | cons e1 stack =>
        simp only [NFA.newSplitState] at h
        obtain ⟨h1, h2⟩ : ({ nfa with transitions := nfa.transitions ++
              [Transition.split (some e1.start) (some e2.start)] } : NFA) = nfa2 ∧
            (⟨nfa.transitions.length, e1.out ++ e2.out⟩ : Frag) :: stack = stack2 := by
          simpa using h
        subst h1; subst h2
        have he1 : e1.start ≠ 1 := hstk e1 (List.mem_cons_of_mem _ (List.mem_cons_self _ _))
        have he2 : e2.start ≠ 1 := hstk e2 (List.mem_cons_self _ _)
        refine ⟨hacc, heof, by simp only []; rw [List.length_append]; simp; omega, ?_, ?_⟩
        · exact noEdge_push _ _ _ hno (by intro l e he; cases he)
            (by intro ea eb he
                injection he with h1 h2
                subst h1; subst h2
                exact ⟨fun hc => he1 (Option.some.inj hc), fun hc => he2 (Option.some.inj hc)⟩)
            (by intro g e he; cases he)
        · intro f hf
          rcases List.mem_cons.mp hf with rfl | hm
          · simp only []; omega
          · exact hstk f (List.mem_cons_of_mem _ (List.mem_cons_of_mem _ hm))
  | concat =>
    rw [compileStep.eq_def] at h
    simp only [] at h
    cases stack with
    | nil => simp at h
    | cons e2 stack =>
      cases stack with
      | nil => simp at h
      | cons e1 stack =>
        simp only [] at h
        cases hp : NFA.patch nfa e1 e2.start with
        | none => rw [hp] at h; simp at h
        | some nfap =>
          rw [hp] at h
          simp only [] at h
          obtain ⟨h1, h2⟩ : nfap = nfa2 ∧
              (⟨e1.start, e2.out⟩ : Frag) :: stack = stack2 := by simpa using h
          subst h1; subst h2
          rw [NFA.patch] at hp
          cases hpo : patchOut nfa.transitions e1.out e2.start with
          | none => rw [hpo] at hp; simp at hp
          | some ts2 =>
            rw [hpo] at hp
            simp only [Option.map_some'] at hp
            have he2 : e2.start ≠ 1 := hstk e2 (List.mem_cons_self _ _)
            have he1 : e1.start ≠ 1 := hstk e1 (List.mem_cons_of_mem _ (List.mem_cons_self _ _))
            obtain ⟨hno2, hlen2⟩ := patchOut_props e2.start 1 e1.out _ ts2 hpo hno he2
            have hnfa2 : nfap = { nfa with transitions := ts2 } := (Option.some.inj hp).symm
            subst hnfa2
            refine ⟨hacc, heof, by simp only []; omega, hno2, ?_⟩
            intro f hf
            rcases List.mem_cons.mp hf with rfl | hm
            · exact he1
            · exact hstk f (List.mem_cons_of_mem _ (List.mem_cons_of_mem _ hm))
  | kleeneP =>
    rw [compileStep.eq_def] at h
    simp only [] at h
    cases stack with
    | nil => simp at h
    | cons e stack =>
      simp only [NFA.newSplitState] at h
      cases hp : NFA.patch { nfa with
          transitions := nfa.transitions ++ [Transition.split (some e.start) none] }
          e nfa.transitions.length with
      | none => rw [hp] at h; simp at h
      | some nfap =>
        rw [hp] at h
        simp only [] at h
        obtain ⟨h1, h2⟩ : nfap = nfa2 ∧
            (⟨e.start, [nfa.transitions.length]⟩ : Frag) :: stack = stack2 := by
          simpa using h
        subst h1; subst h2
        rw [NFA.patch] at hp
        cases hpo : patchOut (nfa.transitions ++ [Transition.split (some e.start) none])
            e.out nfa.transitions.length with
        | none => rw [hpo] at hp; simp at hp
        | some ts2 =>
          rw [hpo] at hp
          simp only [Option.map_some'] at hp
          have hne : nfa.transitions.length ≠ 1 := by omega
          have hes : e.start ≠ 1 := hstk e (List.mem_cons_self _ _)
          have hnoApp : NoEdgeInto (nfa.transitions ++ [Transition.split (some e.start) none]) 1 :=
            noEdge_push _ _ _ hno (by intro l e2 he; cases he)
              (by intro e1 e2 he
                  injection he with h1 h2
                  subst h1; subst h2
                  exact ⟨fun hc => hes (Option.some.inj hc), by intro hc; cases hc⟩)
              (by intro g e2 he; cases he)
          obtain ⟨hno2, hlen2⟩ := patchOut_props nfa.transitions.length 1 e.out _ ts2 hpo hnoApp hne
          have hnfa2 : nfap = { nfa with transitions := ts2 } := (Option.some.inj hp).symm
          subst hnfa2
          refine ⟨hacc, heof, ?_, hno2, ?_⟩
          · simp only []
            rw [hlen2]
            simp only [List.length_append, List.length_cons, List.length_nil]
            omega
          · intro f hf
            rcases List.mem_cons.mp hf with rfl | hm
            · exact hes
            · exact hstk f (List.mem_cons_of_mem _ hm)
  | optional =>
    rw [compileStep.eq_def] at h
    simp only [] at h
    cases stack with
    | nil => simp at h
    | cons e stack =>
      simp only [NFA.newSplitState] at h
      obtain ⟨h1, h2⟩ : ({ nfa with transitions := nfa.transitions ++
            [Transition.split (some e.start) none] } : NFA) = nfa2 ∧
          (⟨nfa.transitions.length, e.out ++ [nfa.transitions.length]⟩ : Frag) :: stack = stack2 := by
        simpa using h
      subst h1; subst h2
      have hes : e.start ≠ 1 := hstk e (List.mem_cons_self _ _)
      refine ⟨hacc, heof, by simp only []; rw [List.length_append]; simp; omega, ?_, ?_⟩
      · exact noEdge_push _ _ _ hno (by intro l e2 he; cases he)
          (by intro ea eb he
              injection he with h1 h2
              subst h1; subst h2
              exact ⟨fun hc => hes (Option.some.inj hc), by intro hc; cases hc⟩)
          (by intro g e2 he; cases he)
      · intro f hf
        rcases List.mem_cons.mp hf with rfl | hm
        · simp only []; omega
        · exact hstk f (List.mem_cons_of_mem _ hm)
  | range => rw [compileStep] at h; simp at h
  | oparen => rw [compileStep] at h; simp at h
  | cparen => rw [compileStep] at h; simp at h
  | eof =>
    rw [compileStep.eq_def] at h
    simp only [] at h
    simp only [NFA.newSplitState] at h
    obtain ⟨h1, h2⟩ : ({ nfa with transitions := nfa.transitions ++
          [Transition.split (some nfa.eof) none] } : NFA) = nfa2 ∧
        (⟨nfa.transitions.length, []⟩ : Frag) :: stack = stack2 := by simpa using h
    subst h1; subst h2
    refine ⟨hacc, heof, by simp only []; rw [List.length_append]; simp; omega, ?_, ?_⟩
    · exact noEdge_push _ _ _ hno (by intro l e2 he; cases he)
        (by intro ea eb he
            injection he with h1 h2
            subst h1; subst h2
            refine ⟨?_, by intro hc; cases hc⟩
            rw [heof]
            intro hc; cases hc)
        (by intro g e2 he; cases he)
    · intro f hf
      rcases List.mem_cons.mp hf with rfl | hm
      · simp only []; omega
      · exact hstk f hm
  | lit c =>
    rw [compileStep.eq_def] at h
    simp only [] at h
    simp only [NFA.newLabelState] at h
    obtain ⟨h1, h2⟩ : ({ nfa with transitions := nfa.transitions ++
          [Transition.label c nfa.transitions.length] } : NFA) = nfa2 ∧
        (⟨nfa.transitions.length, [nfa.transitions.length]⟩ : Frag) :: stack = stack2 := by
      simpa using h
    subst h1; subst h2
    refine ⟨hacc, heof, by simp only []; rw [List.length_append]; simp; omega, ?_, ?_⟩
    · exact noEdge_push _ _ _ hno
        (by intro l e2 he
            injection he with h1 h2
            subst h2
            omega)
        (by intro ea eb he; cases he)
        (by intro g e2 he; cases he)
    · intro f hf
      rcases List.mem_cons.mp hf with rfl | hm
      · simp only []; omega
      · exact hstk f hm

/-- The whole compile loop preserves the compile invariant. -/
theorem compileSteps_inv :
    ∀ (tokens : List Token) (nfa : NFA) (stack : List Frag) (nfa2 : NFA) (stack2 : List Frag),
      compileSteps tokens nfa stack = some (.ok (nfa2, stack2)) →
      CompInv nfa stack → CompInv nfa2 stack2 := by
  intro tokens
  induction tokens with
  | nil =>
    intro nfa stack nfa2 stack2 h hinv
    rw [compileSteps] at h
    obtain ⟨h1, h2⟩ : nfa = nfa2 ∧ stack = stack2 := by simpa using h
    subst h1; subst h2
    exact hinv
  | cons t rest ih =>
    intro nfa stack nfa2 stack2 h hinv
    rw [compileSteps] at h
    cases h1 : compileStep nfa stack t with
    | none => rw [h1] at h; simp at h
    | some r =>
      rw [h1] at h
      cases r with
      | error e => simp at h
      | ok p =>
        obtain ⟨nfaA, stackA⟩ := p
        simp only [] at h
        exact ih nfaA stackA nfa2 stack2 h (compileStep_inv nfa stack t nfaA stackA h1 hinv)

/-- The compile loop splits over appended token lists. -/
theorem compileSteps_append :
    ∀ (xs ys : List Token) (nfa : NFA) (stack : List Frag),
      compileSteps (xs ++ ys) nfa stack =
        match compileSteps xs nfa stack with
        | none => none
        | some (.error e) => some (.error e)
        | some (.ok (nfa2, stack2)) => compileSteps ys nfa2 stack2 := by
  intro xs
  induction xs with
  | nil => intro ys nfa stack; rfl
  | cons t rest ih =>
    intro ys nfa stack
    rw [List.cons_append, compileSteps, compileSteps]
    cases compileStep nfa stack t with
    | none => rfl
    | some r =>
      cases r with
      | error e => rfl
      | ok p => obtain ⟨nfaA, stackA⟩ := p; exact ih ys nfaA stackA

/-- `toMatch` preserves the length component. -/
theorem toMatch_matchSize (p : Option String × Nat) : (toMatch p).matchSize = p.2 := by
  obtain ⟨k, n⟩ := p
  cases k <;> rfl

/-- The initial arena satisfies the compile invariant. -/
theorem initNFA_inv : CompInv initNFA [] := by
  refine ⟨rfl, rfl, by decide, ?_, by intro f hf; cases hf⟩
  intro t ht
  rcases List.mem_cons.mp ht with rfl | ht2
  · exact ⟨(fun l e he => by cases he), (fun a b he => by cases he), (fun g e he => by cases he)⟩
  · have : t = Transition.accept := by simpa using ht2
    subst this
    exact ⟨(fun l e he => by cases he), (fun a b he => by cases he), (fun g e he => by cases he)⟩

/-- Compiling a postfix that ends with the top-level factor `$` (tokens
`P ++ [Eof, Concat]`) yields an arena with no edge into the accept state and a
start distinct from it: the `Eof` fragment has no dangling outs, so the final
patch to the accept state patches nothing. -/
theorem compileF_eof_concat_props (P : List Token) (nfa : NFA)
    (h : compileF (P ++ [Token.eof, Token.concat]) = some (Except.ok nfa)) :
    nfa.accept = 1 ∧ NoEdgeInto nfa.transitions 1 ∧ nfa.start ≠ 1 := by
  rw [compileF, compileSteps_append] at h
  cases h1 : compileSteps P initNFA [] with
  | none => rw [h1] at h; simp at h
  | some r1 =>
    rw [h1] at h
    cases r1 with
    | error e => simp at h
    | ok p1 =>
      obtain ⟨nfa1, stack1⟩ := p1
      simp only [] at h
      have hinv1 : CompInv nfa1 stack1 :=
        compileSteps_inv P initNFA [] nfa1 stack1 h1 initNFA_inv
      rw [compileSteps] at h
      have he : compileStep nfa1 stack1 Token.eof =
          some (.ok ({ nfa1 with transitions :=
              nfa1.transitions ++ [Transition.split (some nfa1.eof) none] },
            (⟨nfa1.transitions.length, []⟩ : Frag) :: stack1)) := rfl
      rw [he] at h
      simp only [] at h
      rw [compileSteps] at h
      cases stack1 with
      | nil =>
        have hc : compileStep { nfa1 with transitions :=
            nfa1.transitions ++ [Transition.split (some nfa1.eof) none] }
            [⟨nfa1.transitions.length, []⟩] Token.concat = none := rfl
        rw [hc] at h
        simp at h
      | cons e1 rest =>
        rw [compileStep.eq_def] at h
        simp only [] at h
        cases hp : NFA.patch { nfa1 with transitions :=
            nfa1.transitions ++ [Transition.split (some nfa1.eof) none] }
            e1 nfa1.transitions.length with
        | none => rw [hp] at h; simp at h
        | some nfa3 =>
          rw [hp] at h
          simp only [] at h
          rw [compileSteps] at h
          simp only [] at h
          have hinvE : CompInv { nfa1 with transitions :=
              nfa1.transitions ++ [Transition.split (some nfa1.eof) none] }
              ((⟨nfa1.transitions.length, []⟩ : Frag) :: e1 :: rest) :=
            compileStep_inv nfa1 (e1 :: rest) Token.eof _ _ he hinv1
          have hinv3 : CompInv nfa3 ((⟨e1.start, []⟩ : Frag) :: rest) := by
            refine compileStep_inv _ ((⟨nfa1.transitions.length, []⟩ : Frag) :: e1 :: rest)
              Token.concat nfa3 _ ?_ hinvE
            rw [compileStep.eq_def]
            simp only []
            rw [hp]
          cases rest with
          | nil =>
            rw [finalize] at h
            rw [NFA.patch] at h
            rw [patchOut] at h
            simp only [Option.map_some'] at h
            have hnfa : nfa = { nfa3 with start := e1.start } := by
              have := Option.some.inj h
              cases this
              rfl
            subst hnfa
            obtain ⟨hacc3, _, _, hno3, hstk3⟩ := hinv3
            exact ⟨hacc3, hno3, hstk3 ⟨e1.start, []⟩ (List.mem_cons_self _ _)⟩
          | cons f rest2 =>
            rw [finalize.eq_def] at h
            simp at h

/-- C3 (amended): for a pattern compiled from postfix `P ++ [Eof, Concat]`
(`$` as the final top-level factor), every returned match has length exactly
the input's byte length — the accept state is unreachable, so no proper-prefix
match is ever recorded, and matches only arise from the Eof state at the exact
end of input — and at most one match is returned. -/
theorem c3_eof_terminated_full_length (P : List Token) (nfa : NFA)
    (hc : compileF (P ++ [Token.eof, Token.concat]) = some (Except.ok nfa))
    (input : List Char) (fuel : Nat) (res : List Match)
    (h : isMatchFuel fuel nfa input = some res) :
    (∀ m ∈ res, m.matchSize = byteLen input) ∧ res.length ≤ 1 := by
  obtain ⟨hacc, hno, hstart⟩ := compileF_eof_concat_props P nfa hc
  have hno2 : NoEdgeInto nfa.transitions nfa.accept := by rw [hacc]; exact hno
  have hstart2 : nfa.start ≠ nfa.accept := by rw [hacc]; exact hstart
  rw [isMatchFuel] at h
  cases h1 : addState nfa fuel (Step.new nfa.transitions.length) [] [] none nfa.start with
  | none => rw [h1] at h; simp at h
  | some r1 =>
    obtain ⟨st1, cur1, ms1⟩ := r1
    rw [h1] at h
    simp only [] at h
    cases h2 : mainLoop nfa fuel st1 cur1 ms1 input with
    | none => rw [h2] at h; simp at h
    | some r2 =>
      obtain ⟨st2, cur2, ms2⟩ := r2
      rw [h2] at h
      simp only [] at h
      have hres := (Option.some.inj h).symm
      have hms1 : ms1 = [] :=
        addState_ms_of_noAcc nfa hno2 fuel _ [] [] none nfa.start st1 cur1 ms1 hstart2 h1
      have hms2 : ms2 = [] :=
        (mainLoop_ms_of_noAcc nfa hno2 fuel input st1 cur1 ms1 st2 cur2 ms2 h2).trans hms1
      obtain ⟨hv1, hd1⟩ := addState_visited nfa fuel _ [] [] none nfa.start st1 cur1 ms1 h1
        (by intro e he; cases he)
      have hd2 := mainLoop_frontier nfa fuel input st1 cur1 ms1 st2 cur2 ms2 h2 hv1
        (hd1 List.Pairwise.nil)
      rw [hms2] at hres
      simp only [List.nil_append] at hres
      constructor
      · intro m hm
        rw [hres, List.mem_map] at hm
        obtain ⟨p, hp, rfl⟩ := hm
        rw [toMatch_matchSize]
        exact eofEntries_snd nfa.eof (byteLen input) cur2 p hp
      · rw [hres, List.length_map]
        exact eofEntries_len_le_one nfa.eof (byteLen input) cur2 hd2

/-- C3 witness: the amended statement evaluated on `a$` and input `a`. -/
theorem c3_eof_terminated_full_length_witness :
    (∀ m ∈ [Match.noGroup 1], m.matchSize = byteLen ['a']) ∧
      ([Match.noGroup 1] : List Match).length ≤ 1 :=
  c3_eof_terminated_full_length [Token.lit (Lit.char 'a')] nfaLitEof (by decide)
    ['a'] 50 [Match.noGroup 1] (by decide)

/-- Counting `Eof` entries distributes over append. -/
theorem countEof_append (xs ys : List Transition) :
    countEof (xs ++ ys) = countEof xs + countEof ys := by
  simp [countEof, List.filter_append]

/-- Counting `Group` entries distributes over append. -/
theorem countGroup_append (xs ys : List Transition) :
    countGroup (xs ++ ys) = countGroup xs + countGroup ys := by
  simp [countGroup, List.filter_append]

/-- The fusion renumbering preserves the kind of every transition, hence the
`Eof` count. -/
theorem countEof_map_fuse (a b o : Nat) :
    ∀ ts : List Transition, countEof (ts.map (fuseTransition a b o)) = countEof ts := by
  intro ts
  induction ts with
  | nil => rfl
  | cons t rest ih =>
    rw [List.map_cons]
    cases t with
    | label l e => simpa [countEof, fuseTransition, List.filter_cons] using ih
    | split e1 e2 => simpa [countEof, fuseTransition, List.filter_cons] using ih
    | group g e => simpa [countEof, fuseTransition, List.filter_cons] using ih
    | eof => simpa [countEof, fuseTransition, List.filter_cons] using ih
    | accept => simpa [countEof, fuseTransition, List.filter_cons] using ih

/-- The fusion renumbering preserves the `Group` count. -/
theorem countGroup_map_fuse (a b o : Nat) :
    ∀ ts : List Transition, countGroup (ts.map (fuseTransition a b o)) = countGroup ts := by
  intro ts
  induction ts with
  | nil => rfl
  | cons t rest ih =>
    rw [List.map_cons]
    cases t with
    | label l e => simpa [countGroup, fuseTransition, List.filter_cons] using ih
    | split e1 e2 => simpa [countGroup, fuseTransition, List.filter_cons] using ih
    | group g e => simpa [countGroup, fuseTransition, List.filter_cons] using ih
    | eof => simpa [countGroup, fuseTransition, List.filter_cons] using ih
    | accept => simpa [countGroup, fuseTransition, List.filter_cons] using ih

/-- One fusion step adds the appended component's `Eof` entries, one new
`Group` and no new `Accept`/`Eof` of its own; the accept and eof fields are
untouched. -/
theorem fuseStep_counts (base : NFA) (p : String × NFA) :
    countEof (fuseStep base p).transitions =
        countEof base.transitions + countEof p.2.transitions ∧
      countGroup (fuseStep base p).transitions =
        countGroup base.transitions + countGroup p.2.transitions + 1 ∧
      (fuseStep base p).accept = base.accept ∧ (fuseStep base p).eof = base.eof := by
  refine ⟨?_, ?_, rfl, rfl⟩
  · show countEof ((base.transitions ++ _) ++ [Transition.split _ _]) = _
    rw [countEof_append, countEof_append, countEof_map_fuse]
    show _ + (countEof (p.2.transitions ++ [Transition.group p.1 p.2.start])) + _ = _
    rw [countEof_append]
    simp [countEof]
  · show countGroup ((base.transitions ++ _) ++ [Transition.split _ _]) = _
    rw [countGroup_append, countGroup_append, countGroup_map_fuse]
    show _ + (countGroup (p.2.transitions ++ [Transition.group p.1 p.2.start])) + _ = _
    rw [countGroup_append]
    simp [countGroup]
    omega

/-- Fusion-loop counting over a list of components. -/
theorem foldl_fuse_counts :
    ∀ (l : List (String × NFA)) (base : NFA),
      countEof (l.foldl fuseStep base).transitions =
          countEof base.transitions + (l.map fun p => countEof p.2.transitions).sum ∧
        countGroup (l.foldl fuseStep base).transitions =
          countGroup base.transitions + l.length +
            (l.map fun p => countGroup p.2.transitions).sum ∧
        (l.foldl fuseStep base).accept = base.accept ∧
        (l.foldl fuseStep base).eof = base.eof := by
  intro l
  induction l with
  | nil => intro base; exact ⟨by simp, by simp, rfl, rfl⟩
  | cons q rest ih =>
    intro base
    rw [List.foldl_cons]
    obtain ⟨ihE, ihG, ihA, ihF⟩ := ih (fuseStep base q)
    obtain ⟨hE, hG, hA, hF⟩ := fuseStep_counts base q
    refine ⟨?_, ?_, ihA.trans hA, ihF.trans hF⟩
    · rw [ihE, hE, List.map_cons, List.sum_cons]
      omega
    · rw [ihG, hG, List.map_cons, List.sum_cons, List.length_cons]
      omega

/-- C5 (amended): `NFASet::build` keeps the base (last) component's accept and
eof fields, redirects component accept edges, and wraps each component in
exactly one fresh `Group`; but every component's own `Eof` entry survives in
the fused table, so the table holds one `Eof` entry per component — not exactly
one — and one `Group` per component beyond the components' own `Group`s. -/
theorem c5_fusion_counts (pairs : List (String × NFA)) (marker : String)
    (base : NFA) (fused : NFA)
    (hl : pairs.getLast? = some (marker, base))
    (hb : NFASet.build pairs = .ok fused) :
    fused.accept = base.accept ∧ fused.eof = base.eof ∧
      countEof fused.transitions = (pairs.map fun p => countEof p.2.transitions).sum ∧
      countGroup fused.transitions =
        pairs.length + (pairs.map fun p => countGroup p.2.transitions).sum := by
  rw [NFASet.build, hl] at hb
  simp only [] at hb
  have hf : fused = pairs.dropLast.foldl fuseStep (base.newGroupState marker) := by
    cases hb; rfl
  subst hf
  obtain ⟨hE, hG, hA, hF⟩ := foldl_fuse_counts pairs.dropLast (base.newGroupState marker)
  have hwrapE : countEof (base.newGroupState marker).transitions = countEof base.transitions := by
    show countEof (base.transitions ++ [Transition.group marker base.start]) = _
    rw [countEof_append]; simp [countEof]
  have hwrapG : countGroup (base.newGroupState marker).transitions =
      countGroup base.transitions + 1 := by
    show countGroup (base.transitions ++ [Transition.group marker base.start]) = _
    rw [countGroup_append]; simp [countGroup]
  have hsplit : pairs.dropLast ++ [(marker, base)] = pairs :=
    List.dropLast_append_getLast? _ hl
  refine ⟨hA, hF, ?_, ?_⟩
  · rw [hE, hwrapE]
    conv_rhs => rw [← hsplit]
    rw [List.map_append, List.sum_append]
    simp
    omega
  · rw [hG, hwrapG]
    conv_rhs => rw [← hsplit]
    rw [List.map_append, List.sum_append, ← hsplit, List.length_append]
    simp
    omega

/-- C5 witness: the count laws evaluated on the two-component set. -/
theorem c5_fusion_counts_witness :
    fusedPair.accept = nfaCharB.accept ∧ fusedPair.eof = nfaCharB.eof ∧
      countEof fusedPair.transitions =
        ([("l1", nfaCharA), ("l2", nfaCharB)].map fun p => countEof p.2.transitions).sum ∧
      countGroup fusedPair.transitions =
        ([("l1", nfaCharA), ("l2", nfaCharB)] : List (String × NFA)).length +
          (([("l1", nfaCharA), ("l2", nfaCharB)] : List (String × NFA)).map
            fun p => countGroup p.2.transitions).sum :=
  c5_fusion_counts [("l1", nfaCharA), ("l2", nfaCharB)] "l2" nfaCharB fusedPair
    (by decide) (by decide)

/-- C9: once a terminal flag of the lexer driver is set, `next()` returns
`None`, and both flags survive the call unchanged — so by induction every
subsequent call returns `None` as well. -/
theorem c9_terminal_flags_stop_iteration {T : Type} (impl : TokenImpl T)
    (st : LexDriver) (out : Option (Except LexError (Spanned T))) (st2 : LexDriver)
    (hflag : st.sentError = true ∨ st.sentEof = true)
    (h : lexNext impl st = some (out, st2)) :
    out = none ∧ st2.sentError = st.sentError ∧ st2.sentEof = st.sentEof := by
  rw [lexNext] at h
  cases hdb : dropBytes (impl.skipChars st.input) st.input with
  | none => rw [hdb] at h; simp at h
  | some input1 =>
    rw [hdb] at h
    simp only [] at h
    split at h
    · injection h with h2
      injection h2 with hout hst
      subst hst
      exact ⟨hout.symm, rfl, rfl⟩
    · next hc =>
        exfalso
        simp only [Bool.or_eq_true] at hc
        rcases hflag with hf | hf
        · exact hc (Or.inl hf)
        · exact hc (Or.inr hf)

/-- C9 witness: the terminal behaviour evaluated on a concrete driver state
with the error flag set. -/
theorem c9_terminal_flags_stop_iteration_witness :
    (stErrSet.sentError = true ∨ stErrSet.sentEof = true) ∧
      ((none : Option (Except LexError (Spanned Unit))) = none ∧
        stErrSet.sentError = stErrSet.sentError ∧ stErrSet.sentEof = stErrSet.sentEof) :=
  ⟨Or.inl rfl,
    c9_terminal_flags_stop_iteration implUnit stErrSet none stErrSet (Or.inl rfl) rfl⟩

/-- The main loop keeps an empty frontier empty and never records from it. -/
theorem mainLoop_nil_frontier (nfa : NFA) (fuel : Nat) :
    ∀ (input : List Char) (st : Step) (ms : Matches),
      ∃ st2, mainLoop nfa fuel st [] ms input = some (st2, [], ms) := by
  intro input
  induction input with
  | nil => intro st ms; exact ⟨st, rfl⟩
  | cons c rest ih =>
    intro st ms
    rw [mainLoop]
    have hsf : stepFn nfa fuel (st.nextStep c) [] [] ms =
        some (st.nextStep c, [], ms) := rfl
    rw [hsf]
    exact ih (st.nextStep c) ms

/-- C10: a reversed-range literal accepts no character; the pattern `z-a`
parses (the Range merge produces `Lit(Range(z..=a))`), compiles, and its NFA
returns the empty match collection on every input instead of an error. -/
theorem c10_reversed_range_matches_nothing :
    (∀ lo hi c : Char, hi < lo → Lit.accepts (.range lo hi) c = false) ∧
      parsePF ['z', '-', 'a'] = some (Except.ok [Token.lit (Lit.range 'z' 'a')]) ∧
      compileF [Token.lit (Lit.range 'z' 'a')] = some (Except.ok nfaRevRange) ∧
      ∀ (input : List Char) (fuel : Nat),
        isMatchFuel (fuel + 1) nfaRevRange input = some [] := by
  refine ⟨?_, by decide, by decide, ?_⟩
  · intro lo hi c hlt
    simp only [Lit.accepts]
    rw [decide_eq_false_iff_not]
    rintro ⟨h1, h2⟩
    exact absurd (le_trans h1 h2) (not_le.mpr hlt)
  · intro input fuel
    rw [isMatchFuel]
    have hadd : addState nfaRevRange (fuel + 1) (Step.new nfaRevRange.transitions.length)
        [] [] none nfaRevRange.start =
        some (⟨Char.ofNat 0, 0, [0, 0, 1], 1⟩, [(none, 2)], []) := by
      rw [addState]
      rfl
    rw [hadd]
    simp only []
    cases input with
    | nil => rfl
    | cons c rest =>
      rw [mainLoop]
      have hacc : Lit.accepts (Lit.range 'z' 'a') c = false := by
        simp only [Lit.accepts]
        rw [decide_eq_false_iff_not]
        rintro ⟨h1, h2⟩
        exact absurd (le_trans h1 h2) (by decide)
      have hsf : stepFn nfaRevRange (fuel + 1)
          ((⟨Char.ofNat 0, 0, [0, 0, 1], 1⟩ : Step).nextStep c) [(none, 2)] [] [] =
          some ((⟨Char.ofNat 0, 0, [0, 0, 1], 1⟩ : Step).nextStep c, [], []) := by
        rw [stepFn]
        have htr : nfaRevRange.transitions[2]? =
            some (Transition.label (Lit.range 'z' 'a') 1) := rfl
        rw [htr]
        simp only []
        rw [if_neg (by
          show ¬ Lit.accepts (Lit.range 'z' 'a')
            ((⟨Char.ofNat 0, 0, [0, 0, 1], 1⟩ : Step).nextStep c).currentChar = true
          rw [show ((⟨Char.ofNat 0, 0, [0, 0, 1], 1⟩ : Step).nextStep c).currentChar = c from rfl,
            hacc]
          simp)]
        rfl
      rw [hsf]
      simp only []
      obtain ⟨st2, hml⟩ := mainLoop_nil_frontier nfaRevRange (fuel + 1) rest
        ((⟨Char.ofNat 0, 0, [0, 0, 1], 1⟩ : Step).nextStep c) []
      rw [hml]
      rfl

/-- C10 witness: the reversed range rejects a sample character and the
compiled NFA returns no match on a sample input. -/
theorem c10_reversed_range_matches_nothing_witness :
    ('a' < 'z') ∧ Lit.accepts (.range 'z' 'a') 'm' = false ∧
      isMatchFuel 50 nfaRevRange ['m'] = some [] :=
  ⟨by decide, c10_reversed_range_matches_nothing.1 'z' 'a' 'm' (by decide),
    c10_reversed_range_matches_nothing.2.2.2 ['m'] 49⟩

/-- Every character outside `( | - $` maps to a token with
`needs_concat = true`. -/
theorem charToken_snd_true (c : Char) (h : c ∉ (['(', '|', '-', '$'] : List Char)) :
    (charToken c).2 = true := by
  rw [charToken.eq_def]
  split
  · exact absurd (by simp) h
  · exact absurd (by simp) h
  · exact absurd (by simp) h
  · rfl
  · rfl
  · rfl
  · rfl
  · exact absurd (by simp) h
  · rfl

/-- C6 (amended): the implicit-concatenation rule.  After a non-escape
character outside `( | - $ \` (first part), and after an escape literal
(second part), a `Concat` is inserted when the next non-whitespace scalar is
not one of `) * + | ? -`; after the `$` token no `Concat` is ever inserted
(third part). -/
theorem c6_concat_insertion :
    (∀ (c c2 : Char) (rest : List Char),
        c.isWhitespace = false → c ∉ (['(', '|', '-', '$', '\\'] : List Char) →
        nextNonWs rest = some c2 → noConcatBefore c2 = false →
        lexAll (c :: rest) =
          (lexAll rest).map fun ts => (charToken c).1 :: Token.concat :: ts) ∧
      (∀ (e c2 : Char) (rest : List Char),
        nextNonWs rest = some c2 → noConcatBefore c2 = false →
        lexAll ('\\' :: e :: rest) =
          (lexAll rest).map fun ts => Token.lit (escapeLit e) :: Token.concat :: ts) ∧
      (∀ rest : List Char,
        lexAll ('$' :: rest) = (lexAll rest).map fun ts => Token.eof :: ts) := by
  refine ⟨?_, ?_, ?_⟩
  · intro c c2 rest hws hns hnw hnc
    have hbs : c ≠ '\\' := by
      intro hc
      exact hns (by simp [hc])
    have h4 : c ∉ (['(', '|', '-', '$'] : List Char) := by
      intro hm
      apply hns
      simp only [List.mem_cons, List.not_mem_nil, or_false] at hm ⊢
      rcases hm with h | h | h | h
      · exact Or.inl h
      · exact Or.inr (Or.inl h)
      · exact Or.inr (Or.inr (Or.inl h))
      · exact Or.inr (Or.inr (Or.inr (Or.inl h)))
    have hck : (charToken c).2 = true := charToken_snd_true c h4
    rw [lexAll.eq_def]
    simp only []
    rw [if_neg (by rw [hws]; intro hc; cases hc), if_neg hbs]
    simp only [hnw, hck, hnc]
    rfl
  · intro e c2 rest hnw hnc
    rw [lexAll.eq_def]
    simp only []
    rw [if_neg (by intro hc; revert hc; decide), if_pos trivial]
    simp only [hnw, hnc]
    rfl
  · intro rest
    rw [lexAll.eq_def]
    simp only []
    rw [if_neg (by intro hc; revert hc; decide), if_neg (by decide)]
    rfl

/-- C6 witness: the three parts of the rule at concrete inputs. -/
theorem c6_concat_insertion_witness :
    lexAll ['a', 'b'] =
        some [Token.lit (Lit.char 'a'), Token.concat, Token.lit (Lit.char 'b')] ∧
      lexAll ['\\', 'n', 'b'] =
        some [Token.lit (Lit.char '\n'), Token.concat, Token.lit (Lit.char 'b')] ∧
      lexAll ['$', 'b'] = some [Token.eof, Token.lit (Lit.char 'b')] := by
  refine ⟨?_, ?_, ?_⟩
  · rw [c6_concat_insertion.1 'a' 'b' ['b'] (by decide) (by decide) (by decide) (by decide)]
    rfl
  · rw [c6_concat_insertion.2.1 'n' 'b' ['b'] (by decide) (by decide)]
    rfl
  · rw [c6_concat_insertion.2.2 ['b']]
    rfl

end AutomataRust
